import Mathlib

/-!
Verification of the `bitvec` package: a word-aligned hybrid (WAH) compressed
bitvector with 64-bit words.  The definitions below are a shallow embedding of
the Go source (`bitvec.go`, the 64-bit `bitLength` variant whose helpers are
`findWord`, `flushWord`, `updateFill`, `updateLiteral`, and `iterator.go`).
Machine words (`uint64`) are modelled as `Nat` with all bitwise operators exact;
`compl64` models the Go unary complement `^x` on a 64-bit word.
-/

/-- Bits per word (`bitLength = 64`). -/
def bitLength : Nat := 64

/-- 64-bit complement, modelling Go `^x` on a `uint64`. -/
def compl64 (x : Nat) : Nat := (2 ^ 64 - 1) ^^^ x

/-- Mask for the fill flag (`fillFlag = 1 << (bitLength-1)`). -/
def fillFlag : Nat := 1 <<< (bitLength - 1)

/-- Mask for the ones flag (`onesFlag = 1 << (bitLength-2)`). -/
def onesFlag : Nat := 1 <<< (bitLength - 2)

/-- Maximum fill count (`fillMax = (2 << (bitLength-3)) - 1`). -/
def fillMax : Nat := (2 <<< (bitLength - 3)) - 1

/-- Mask for the fill count bits (`countMask = ^(fillFlag | onesFlag)`). -/
def countMask : Nat := compl64 (fillFlag ||| onesFlag)

/-- Filled ones literal (`onesLiteral = ^fillFlag`). -/
def onesLiteral : Nat := compl64 fillFlag

/-- Filled zeros literal (`zerosLiteral = Word(0)`). -/
def zerosLiteral : Nat := 0

/-- Is this word a fill of zeros? (`x & ^countMask == fillFlag`). -/
def isZerosFill (x : Nat) : Prop := x &&& compl64 countMask = fillFlag

/-- Is this word a fill of ones? (`x & ^countMask == ^countMask`). -/
def isOnesFill (x : Nat) : Prop := x &&& compl64 countMask = compl64 countMask

/-- Can this fill count be incremented without overflowing? (`x & countMask < fillMax`). -/
def hasSpace (x : Nat) : Prop := x &&& countMask < fillMax

instance (x : Nat) : Decidable (isZerosFill x) := by unfold isZerosFill; infer_instance

instance (x : Nat) : Decidable (isOnesFill x) := by unfold isOnesFill; infer_instance

instance (x : Nat) : Decidable (hasSpace x) := by unfold hasSpace; infer_instance

/-- The compressed bitvector state (`type Bitvec struct`). -/
structure Bitvec where
  size : Nat
  active : Nat
  offset : Nat
  words : List Nat
deriving Repr, DecidableEq

namespace Bitvec

/-- `New()`: the empty bitvector. -/
def New : Bitvec := { size := 0, active := 0, offset := 0, words := [] }

/-- Inserting an element at position `i`, modelling the Go idiom
`words = append(words, 0); copy(words[i+1:], words[i:])` followed by an
overwrite of slot `i`. -/
def insertAt (ws : List Nat) (i : Nat) (a : Nat) : List Nat :=
  ws.take i ++ a :: ws.drop i

/-- Removing the element at position `i`, modelling the Go idiom
`copy(words[i:], words[i+1:]); words = words[:n]`. -/
def eraseAt (ws : List Nat) (i : Nat) : List Nat :=
  ws.take i ++ ws.drop (i + 1)

/-- `flushWord`: commit the active word to the word list and reset it. -/
def flushWord (b : Bitvec) : Bitvec :=
  let n := b.words.length
  let top := b.words.getD (n - 1) 0
  let ws :=
    if b.active = zerosLiteral then
      if 0 < n ∧ isZerosFill top ∧ hasSpace top then b.words.set (n - 1) (top + 1)
      else b.words ++ [fillFlag]
    else if b.active = onesLiteral then
      if 0 < n ∧ isOnesFill top ∧ hasSpace top then b.words.set (n - 1) (top + 1)
      else b.words ++ [fillFlag ||| onesFlag]
    else b.words ++ [b.active]
  { b with words := ws, active := 0, offset := 0 }

/-- `append`: push one boolean bit onto the tail of the vector. -/
def append (b : Bitvec) (x : Bool) : Bitvec :=
  let b' : Bitvec :=
    { b with active := if x then b.active ||| (1 <<< b.offset) else b.active,
             offset := b.offset + 1, size := b.size + 1 }
  if b'.offset = bitLength - 1 then flushWord b' else b'

/-- The scan loop of `findWord`: walk the words accumulating the
literal-equivalent count `j`, stopping at the first word whose span would
exceed `index`. -/
def findWordLoop : List Nat → Nat → Nat → Nat → Nat × Nat
  | [], _, i, j => (i, j)
  | w :: rest, index, i, j =>
    let nextj := j + 1 + (if w &&& fillFlag ≠ 0 then w &&& countMask else 0)
    if nextj > index then (i, j) else findWordLoop rest index (i + 1) nextj

/-- `findWord(id)`: returns `(index, offset, i, j)` as in the source, including
the out-of-bounds correction `if j+1 < index { i++ }` that runs only when the
scan falls off the end of the word list. -/
def findWord (b : Bitvec) (id : Nat) : Nat × Nat × Nat × Nat :=
  let index := id / (bitLength - 1)
  let offset := id % (bitLength - 1)
  let p := findWordLoop b.words index 0 0
  let i := if p.1 = b.words.length ∧ p.2 + 1 < index then p.1 + 1 else p.1
  (index, offset, i, p.2)

/-- `Get(id)`: read the bit at position `id`. -/
def Get (b : Bitvec) (id : Nat) : Bool :=
  let f := findWord b id
  let offset := f.2.1
  let i := f.2.2.1
  if i = b.words.length then b.active &&& (1 <<< offset) != 0
  else if i > b.words.length then false
  else
    let w := b.words.getD i 0
    if w &&& fillFlag ≠ 0 then w &&& onesFlag != 0
    else w &&& (1 <<< offset) != 0

/-- `updateFill`: split the fill word at list position `i` into up to three
words around a fresh literal carrying the flipped bit. -/
def updateFill (b : Bitvec) (i target offset : Nat) (x : Bool) : Bitvec :=
  let w := b.words.getD i 0
  let head := w &&& (fillFlag ||| onesFlag)
  let sz := w &&& countMask
  let lit := if x then 1 <<< offset else compl64 fillFlag ^^^ (1 <<< offset)
  let p :=
    if target > 0 then
      (insertAt (b.words.set i (head ||| (target - 1))) (i + 1) lit, i + 1)
    else (b.words.set i lit, i)
  let ws := if sz > target then insertAt p.1 (p.2 + 1) (head ||| (sz - target - 1)) else p.1
  { b with words := ws }

/-- `updateLiteral`: flip a bit inside the committed literal at list position
`i`; if the literal becomes all-zero or all-one, merge it into a preceding
same-polarity fill with headroom, or replace it by a fresh fill. -/
def updateLiteral (b : Bitvec) (i offset : Nat) (x : Bool) : Bitvec :=
  let prev := b.words.getD (i - 1) 0
  if x then
    let w := b.words.getD i 0 ||| (1 <<< offset)
    if w = onesLiteral then
      if 0 < i ∧ isOnesFill prev ∧ hasSpace prev then
        { b with words := eraseAt ((b.words.set i w).set (i - 1) (prev + 1)) i }
      else { b with words := b.words.set i (fillFlag ||| onesFlag) }
    else { b with words := b.words.set i w }
  else
    let w := b.words.getD i 0 &&& compl64 (1 <<< offset)
    if w = zerosLiteral then
      if 0 < i ∧ isZerosFill prev ∧ hasSpace prev then
        { b with words := eraseAt ((b.words.set i w).set (i - 1) (prev + 1)) i }
      else { b with words := b.words.set i fillFlag }
    else { b with words := b.words.set i w }

/-- `update`: in-place point write at a position strictly below `size`. -/
def update (b : Bitvec) (id : Nat) (x : Bool) : Bitvec :=
  let f := findWord b id
  let index := f.1
  let offset := f.2.1
  let i := f.2.2.1
  let j := f.2.2.2
  if i = b.words.length then
    { b with active :=
        if x then b.active ||| (1 <<< offset) else b.active &&& compl64 (1 <<< offset) }
  else
    let w := b.words.getD i 0
    if w &&& fillFlag ≠ 0 then
      if (x ∧ w &&& onesFlag = 0) ∨ ¬(x ∨ w &&& onesFlag = 0) then
        updateFill b i (index - j) offset x
      else b
    else updateLiteral b i offset x

/-- `Set(id, x)`: write a bit, zero-extending the vector when `id > size`. -/
def Set (b : Bitvec) (id : Nat) (x : Bool) : Bitvec :=
  let b :=
    if id > b.size then
      let off := b.offset + id - b.size
      let nw := off / (bitLength - 1)
      let b' := flushWord^[nw] b
      { b' with offset := off % (bitLength - 1), size := id }
    else b
  if id = b.size then append b x else update b id x

end Bitvec

/-! ### Abstraction: the sequence of logical bits represented by a `Bitvec` -/

/-- The 63 payload bits of a literal word, in position order. -/
def litBits (w : Nat) : List Bool := (List.range 63).map w.testBit

/-- Number of literal-word-equivalents an encoded word represents. -/
def wordLits (w : Nat) : Nat := if w.testBit 63 then (w &&& countMask) + 1 else 1

/-- The logical bits an encoded word represents. -/
def wordBits (w : Nat) : List Bool :=
  if w.testBit 63 then List.replicate (((w &&& countMask) + 1) * 63) (w.testBit 62)
  else litBits w

/-- The logical bits of a word list. -/
def bitsOfWords : List Nat → List Bool
  | [] => []
  | w :: ws => wordBits w ++ bitsOfWords ws

/-- Total literal-word-equivalents of a word list. -/
def totalLits : List Nat → Nat
  | [] => 0
  | w :: ws => wordLits w + totalLits ws

/-- All logical bits of a `Bitvec`: the committed words followed by the first
`offset` bits of the active word. -/
def toBits (b : Bitvec) : List Bool :=
  bitsOfWords b.words ++ (List.range b.offset).map b.active.testBit

/-- A committed word is well formed: it fits in 64 bits, and a literal
(fill flag clear) is neither the all-zero nor the all-one pattern. -/
def wfWord (w : Nat) : Prop :=
  w < 2 ^ 64 ∧ (w.testBit 63 = false → 0 < w ∧ w ≠ onesLiteral)

/-- Structural well-formedness of a `Bitvec` state. -/
structure WF (b : Bitvec) : Prop where
  offset_lt : b.offset < 63
  active_lt : b.active < 2 ^ b.offset
  words_wf : ∀ w ∈ b.words, wfWord w
  size_eq : b.size = 63 * totalLits b.words + b.offset

/-! ### Bit-level toolkit -/

theorem fillFlag_val : fillFlag = 2 ^ 63 := by decide

theorem onesFlag_val : onesFlag = 2 ^ 62 := by decide

theorem fillMax_val : fillMax = 2 ^ 62 - 1 := by decide

theorem countMask_val : countMask = 2 ^ 62 - 1 := by decide

theorem onesLiteral_val : onesLiteral = 2 ^ 63 - 1 := by decide

theorem headMask_val : compl64 countMask = 2 ^ 63 + 2 ^ 62 := by decide

theorem and_single_ne (w k : Nat) : (w &&& (1 <<< k) ≠ 0) ↔ w.testBit k = true := by
  rw [Nat.one_shiftLeft, Nat.and_two_pow]
  cases h : w.testBit k
  · simp [h]
  · simp [h]

theorem bne_and_single (w k : Nat) : (w &&& (1 <<< k) != 0) = w.testBit k := by
  cases h : w.testBit k
  · have h2 : ¬ (w &&& (1 <<< k) ≠ 0) := fun hc => by simp [(and_single_ne w k).mp hc] at h
    rw [not_not.mp h2]
    simp
  · simp [bne_iff_ne, (and_single_ne w k).mpr h]

theorem and_fillFlag_ne (w : Nat) : (w &&& fillFlag ≠ 0) ↔ w.testBit 63 = true := by
  have : fillFlag = 1 <<< 63 := by decide
  rw [this]; exact and_single_ne w 63

theorem and_onesFlag_ne (w : Nat) : (w &&& onesFlag ≠ 0) ↔ w.testBit 62 = true := by
  have : onesFlag = 1 <<< 62 := by decide
  rw [this]; exact and_single_ne w 62

theorem and_countMask (w : Nat) : w &&& countMask = w % 2 ^ 62 := by
  rw [countMask_val]; exact Nat.and_pow_two_sub_one_eq_mod w 62

/-- Arithmetic normal form of a fill word: high two bits are `1` and the
polarity, the low 62 bits the run counter. -/
def fillW (pol : Bool) (c : Nat) : Nat := 2 ^ 62 * (if pol then 3 else 2) + c

theorem fillW_testBit (pol : Bool) (c : Nat) (hc : c < 2 ^ 62) (k : Nat) :
    (fillW pol c).testBit k =
      if k < 62 then c.testBit k else (if pol then (3 : Nat) else 2).testBit (k - 62) := by
  unfold fillW
  exact Nat.testBit_mul_pow_two_add _ hc k

theorem fillW_testBit63 (pol : Bool) (c : Nat) (hc : c < 2 ^ 62) :
    (fillW pol c).testBit 63 = true := by
  rw [fillW_testBit pol c hc, if_neg (by omega)]
  cases pol <;> decide

theorem fillW_testBit62 (pol : Bool) (c : Nat) (hc : c < 2 ^ 62) :
    (fillW pol c).testBit 62 = pol := by
  rw [fillW_testBit pol c hc, if_neg (by omega)]
  cases pol <;> decide

theorem fillW_count (pol : Bool) (c : Nat) (hc : c < 2 ^ 62) :
    fillW pol c &&& countMask = c := by
  rw [and_countMask]
  unfold fillW
  rw [Nat.mul_add_mod]
  exact Nat.mod_eq_of_lt hc

theorem fillW_lt (pol : Bool) (c : Nat) (hc : c < 2 ^ 62) : fillW pol c < 2 ^ 64 := by
  unfold fillW
  cases pol <;> simp <;> omega

theorem fillW_succ (pol : Bool) (c : Nat) : fillW pol c + 1 = fillW pol (c + 1) := by
  unfold fillW
  omega

theorem fill_decomp (w : Nat) (h64 : w < 2 ^ 64) (h63 : w.testBit 63 = true) :
    w = fillW (w.testBit 62) (w &&& countMask) ∧ w &&& countMask < 2 ^ 62 := by
  have hd63 : w / 2 ^ 63 % 2 = 1 := by simpa [Nat.testBit_to_div_mod] using h63
  have hd62 : w / 2 ^ 62 % 2 = (if w.testBit 62 then 1 else 0) := by
    cases h : w.testBit 62 <;> simp_all [Nat.testBit_to_div_mod] <;> omega
  rw [and_countMask]
  unfold fillW
  constructor
  · cases h : w.testBit 62 <;> simp_all <;> omega
  · omega

theorem lit_lt (w : Nat) (h64 : w < 2 ^ 64) (h63 : w.testBit 63 = false) : w < 2 ^ 63 := by
  apply Nat.lt_pow_two_of_testBit
  intro i hi
  rcases Nat.eq_or_lt_of_le hi with h | h
  · rwa [← h]
  · exact Nat.testBit_lt_two_pow (lt_of_lt_of_le h64 (Nat.pow_le_pow_right (by omega) h))

theorem testBit63_of_lt (w : Nat) (h : w < 2 ^ 63) : w.testBit 63 = false :=
  Nat.testBit_lt_two_pow h

theorem head_eq (w : Nat) :
    w &&& (fillFlag ||| onesFlag) =
      (if w.testBit 63 then 2 ^ 63 else 0) + (if w.testBit 62 then 2 ^ 62 else 0) := by
  have hm : fillFlag ||| onesFlag = 2 ^ 63 ||| 2 ^ 62 := by decide
  rw [hm, Nat.and_comm, Nat.and_distrib_right, Nat.and_comm (2 ^ 63) w,
    Nat.and_comm (2 ^ 62) w, Nat.and_two_pow, Nat.and_two_pow]
  cases h63 : w.testBit 63 <;> cases h62 : w.testBit 62 <;> simp <;> decide

theorem isZerosFill_iff (w : Nat) :
    isZerosFill w ↔ w.testBit 63 = true ∧ w.testBit 62 = false := by
  unfold isZerosFill
  have hm : compl64 countMask = fillFlag ||| onesFlag := by decide
  rw [hm, head_eq, fillFlag_val]
  cases h63 : w.testBit 63 <;> cases h62 : w.testBit 62 <;> simp <;> omega

theorem isOnesFill_iff (w : Nat) :
    isOnesFill w ↔ w.testBit 63 = true ∧ w.testBit 62 = true := by
  unfold isOnesFill
  have hm : compl64 countMask = fillFlag ||| onesFlag := by decide
  have hm2 : fillFlag ||| onesFlag = 2 ^ 63 + 2 ^ 62 := by decide
  rw [hm, head_eq, hm2]
  cases h63 : w.testBit 63 <;> cases h62 : w.testBit 62 <;> simp <;> omega

theorem hasSpace_iff (w : Nat) : hasSpace w ↔ w % 2 ^ 62 < 2 ^ 62 - 1 := by
  unfold hasSpace
  rw [and_countMask, fillMax_val]

theorem compl64_testBit (x k : Nat) :
    (compl64 x).testBit k = (decide (k < 64) ^^ x.testBit k) := by
  unfold compl64
  rw [Nat.testBit_xor, Nat.testBit_two_pow_sub_one]

theorem onesLiteral_testBit (k : Nat) : onesLiteral.testBit k = decide (k < 63) := by
  rw [onesLiteral_val, Nat.testBit_two_pow_sub_one]

theorem or_single_testBit (w k j : Nat) :
    (w ||| 1 <<< k).testBit j = (w.testBit j || decide (k = j)) := by
  rw [Nat.testBit_lor, Nat.one_shiftLeft, Nat.testBit_two_pow]

theorem andc_single_testBit (w k j : Nat) (hj : j < 64) :
    (w &&& compl64 (1 <<< k)).testBit j = (w.testBit j && !decide (k = j)) := by
  rw [Nat.testBit_land, compl64_testBit, Nat.one_shiftLeft, Nat.testBit_two_pow]
  simp [hj]

/-! ### List-level lemmas about the abstraction -/

theorem length_litBits (w : Nat) : (litBits w).length = 63 := by simp [litBits]

theorem getD_replicate_bool (a : Bool) (n k : Nat) :
    (List.replicate n a).getD k false = if k < n then a else false := by
  rw [List.getD_eq_getElem?_getD, List.getElem?_replicate]
  split <;> simp

theorem getD_range_map (f : Nat → Bool) (n k : Nat) :
    ((List.range n).map f).getD k false = if k < n then f k else false := by
  rw [List.getD_eq_getElem?_getD, List.getElem?_map]
  by_cases h : k < n
  · rw [List.getElem?_range h]
    simp [h]
  · rw [List.getElem?_eq_none (by simpa using Nat.le_of_not_lt h)]
    simp [h]

theorem getD_litBits (w k : Nat) (hk : k < 63) : (litBits w).getD k false = w.testBit k := by
  rw [litBits, getD_range_map, if_pos hk]

theorem litBits_zero : litBits 0 = List.replicate 63 false := by decide

theorem litBits_ones : litBits onesLiteral = List.replicate 63 true := by decide

theorem wordLits_fill (pol : Bool) (c : Nat) (hc : c < 2 ^ 62) :
    wordLits (fillW pol c) = c + 1 := by
  rw [wordLits, if_pos (fillW_testBit63 pol c hc), fillW_count pol c hc]

theorem wordLits_lit (w : Nat) (h63 : w.testBit 63 = false) : wordLits w = 1 := by
  rw [wordLits, if_neg (by simp [h63])]

theorem wordBits_fill (pol : Bool) (c : Nat) (hc : c < 2 ^ 62) :
    wordBits (fillW pol c) = List.replicate ((c + 1) * 63) pol := by
  rw [wordBits, if_pos (fillW_testBit63 pol c hc), fillW_count pol c hc,
    fillW_testBit62 pol c hc]

theorem wordBits_lit (w : Nat) (h63 : w.testBit 63 = false) : wordBits w = litBits w := by
  rw [wordBits, if_neg (by simp [h63])]

theorem length_wordBits (w : Nat) : (wordBits w).length = wordLits w * 63 := by
  by_cases h : w.testBit 63 = true
  · simp [wordBits, wordLits, h]
  · simp only [Bool.not_eq_true] at h
    simp [wordBits, wordLits, h, length_litBits]

theorem bitsOfWords_append (l1 l2 : List Nat) :
    bitsOfWords (l1 ++ l2) = bitsOfWords l1 ++ bitsOfWords l2 := by
  induction l1 with
  | nil => rfl
  | cons w ws ih => simp [bitsOfWords, ih]

theorem totalLits_append (l1 l2 : List Nat) :
    totalLits (l1 ++ l2) = totalLits l1 + totalLits l2 := by
  induction l1 with
  | nil => simp [totalLits]
  | cons w ws ih => simp [totalLits, ih]; omega

theorem length_bitsOfWords (ws : List Nat) :
    (bitsOfWords ws).length = totalLits ws * 63 := by
  induction ws with
  | nil => rfl
  | cons w ws ih => simp [bitsOfWords, totalLits, ih, length_wordBits]; ring

theorem length_toBits (b : Bitvec) :
    (toBits b).length = totalLits b.words * 63 + b.offset := by
  simp [toBits, length_bitsOfWords]

theorem take_getD_drop (ws : List Nat) (k : Nat) (hk : k < ws.length) :
    ws = ws.take k ++ ws.getD k 0 :: ws.drop (k + 1) := by
  rw [List.getD_eq_getElem ws 0 hk]
  rw [List.getElem_cons_drop ws k hk]
  exact (List.take_append_drop k ws).symm

theorem set_take_drop (ws : List Nat) (k : Nat) (v : Nat) (hk : k < ws.length) :
    ws.set k v = ws.take k ++ v :: ws.drop (k + 1) := by
  rw [List.set_eq_take_append_cons_drop, if_pos hk]

/-! ### `findWord` specification -/

theorem bne_and_onesFlag (w : Nat) : (w &&& onesFlag != 0) = w.testBit 62 := by
  have h : onesFlag = 1 <<< 62 := by decide
  rw [h]
  exact bne_and_single w 62

theorem step_eq_wordLits (w j : Nat) :
    j + 1 + (if w &&& fillFlag ≠ 0 then w &&& countMask else 0) = j + wordLits w := by
  unfold wordLits
  by_cases h : w.testBit 63 = true
  · rw [if_pos ((and_fillFlag_ne w).mpr h), if_pos h]
    omega
  · simp only [Bool.not_eq_true] at h
    rw [if_neg (fun hc => by simp [(and_fillFlag_ne w).mp hc] at h), if_neg (by simp [h])]

theorem findWordLoop_complete (ws : List Nat) (index i0 j0 : Nat)
    (h : j0 + totalLits ws ≤ index) :
    Bitvec.findWordLoop ws index i0 j0 = (i0 + ws.length, j0 + totalLits ws) := by
  induction ws generalizing i0 j0 with
  | nil => simp [Bitvec.findWordLoop, totalLits]
  | cons w rest ih =>
    rw [Bitvec.findWordLoop]
    simp only [step_eq_wordLits w j0]
    rw [totalLits] at h
    rw [if_neg (by omega)]
    rw [ih (i0 + 1) (j0 + wordLits w) (by omega)]
    simp [totalLits]
    omega

theorem findWordLoop_stop (ws : List Nat) (index i0 j0 : Nat) (hj : j0 ≤ index)
    (h : index < j0 + totalLits ws) :
    ∃ k, k < ws.length ∧
      Bitvec.findWordLoop ws index i0 j0 = (i0 + k, j0 + totalLits (ws.take k)) ∧
      j0 + totalLits (ws.take k) ≤ index ∧
      index < j0 + totalLits (ws.take k) + wordLits (ws.getD k 0) := by
  induction ws generalizing i0 j0 with
  | nil => rw [totalLits] at h; omega
  | cons w rest ih =>
    rw [Bitvec.findWordLoop]
    simp only [step_eq_wordLits w j0]
    by_cases hbr : j0 + wordLits w > index
    · refine ⟨0, by simp, ?_, ?_, ?_⟩
      · rw [if_pos hbr]
        simp [totalLits]
      · simpa [totalLits] using hj
      · simpa [totalLits] using hbr
    · rw [if_neg hbr]
      rw [totalLits] at h
      obtain ⟨k, hk, heq, hlo, hhi⟩ := ih (i0 + 1) (j0 + wordLits w) (by omega) (by omega)
      refine ⟨k + 1, by simpa using hk, ?_, ?_, ?_⟩
      · rw [heq]
        simp [totalLits]
        omega
      · simp only [List.take_succ_cons, totalLits]
        omega
      · simp only [List.take_succ_cons, totalLits, List.getD_cons_succ] at hhi ⊢
        omega

/-! ### Reading `toBits` through the word structure -/


theorem getD_bitsOfWords (ws : List Nat) : ∀ (k index off : Nat),
    (∀ w ∈ ws, wfWord w) → k < ws.length → off < 63 →
    totalLits (ws.take k) ≤ index →
    index < totalLits (ws.take k) + wordLits (ws.getD k 0) →
    (bitsOfWords ws).getD (index * 63 + off) false =
      (if (ws.getD k 0).testBit 63 then (ws.getD k 0).testBit 62
       else (ws.getD k 0).testBit off) := by
  induction ws with
  | nil =>
    intro k _ _ _ hk
    simp at hk
  | cons w rest ih =>
    intro k index off hwf hk hoff hlo hhi
    match k with
    | 0 =>
      simp only [List.getD_cons_zero] at hhi ⊢
      simp only [List.take_zero, totalLits] at hlo hhi
      have hidx : index < wordLits w := by omega
      have hpos : index * 63 + off < wordLits w * 63 := by
        have h2 : (index + 1) * 63 ≤ wordLits w * 63 := Nat.mul_le_mul_right 63 hidx
        omega
      rw [bitsOfWords]
      rw [List.getD_append _ _ _ _ (by rw [length_wordBits]; exact hpos)]
      have hw64 : w < 2 ^ 64 := (hwf w (by simp)).1
      by_cases h63 : w.testBit 63 = true
      · obtain ⟨hdec, hclt⟩ := fill_decomp w hw64 h63
        rw [if_pos h63]
        have hi2 : index < (w &&& countMask) + 1 := by
          have h1 := hidx
          rw [hdec, wordLits_fill _ _ hclt] at h1
          exact h1
        have hb : index * 63 + off < ((w &&& countMask) + 1) * 63 := by
          have h2 : (index + 1) * 63 ≤ ((w &&& countMask) + 1) * 63 :=
            Nat.mul_le_mul_right 63 hi2
          omega
        calc (wordBits w).getD (index * 63 + off) false
            = (wordBits (fillW (w.testBit 62) (w &&& countMask))).getD
                (index * 63 + off) false := by rw [← hdec]
          _ = (List.replicate (((w &&& countMask) + 1) * 63) (w.testBit 62)).getD
                (index * 63 + off) false := by rw [wordBits_fill _ _ hclt]
          _ = w.testBit 62 := by rw [getD_replicate_bool, if_pos hb]
      · simp only [Bool.not_eq_true] at h63
        rw [if_neg (by simp [h63])]
        have h1 : wordLits w = 1 := wordLits_lit w h63
        have hidx0 : index = 0 := by omega
        rw [wordBits_lit w h63, hidx0]
        simpa using getD_litBits w off hoff
    | k' + 1 =>
      simp only [List.take_succ_cons, totalLits, List.getD_cons_succ] at hlo hhi ⊢
      have hwl : wordLits w ≤ index := by omega
      have h2 : wordLits w * 63 ≤ index * 63 := Nat.mul_le_mul_right 63 hwl
      rw [bitsOfWords]
      rw [List.getD_append_right _ _ _ _ (by rw [length_wordBits]; omega)]
      have hsub : (index - wordLits w) * 63 = index * 63 - wordLits w * 63 :=
        Nat.sub_mul index (wordLits w) 63
      have harith : index * 63 + off - (wordBits w).length =
          (index - wordLits w) * 63 + off := by
        rw [length_wordBits]
        omega
      rw [harith]
      exact ih k' (index - wordLits w) off (fun u hu => hwf u (by simp [hu]))
        (by simpa using hk) hoff (by omega) (by omega)

theorem bitLength_sub_one : bitLength - 1 = 63 := rfl

theorem findWordLoop_stop0 (ws : List Nat) (index : Nat) (h : index < totalLits ws) :
    ∃ k, k < ws.length ∧
      Bitvec.findWordLoop ws index 0 0 = (k, totalLits (ws.take k)) ∧
      totalLits (ws.take k) ≤ index ∧
      index < totalLits (ws.take k) + wordLits (ws.getD k 0) := by
  obtain ⟨k, hk, heq, hlo, hhi⟩ := findWordLoop_stop ws index 0 0 (Nat.zero_le _) (by omega)
  exact ⟨k, hk, by simpa using heq, by omega, by omega⟩

theorem findWordLoop_complete0 (ws : List Nat) (index : Nat) (h : totalLits ws ≤ index) :
    Bitvec.findWordLoop ws index 0 0 = (ws.length, totalLits ws) := by
  simpa using findWordLoop_complete ws index 0 0 (by omega)

/-- `findWord` outcome when the scan stops inside the word list. -/
theorem findWord_stop (b : Bitvec) (id k : Nat) (hk : k < b.words.length)
    (heq : Bitvec.findWordLoop b.words (id / 63) 0 0 = (k, totalLits (b.words.take k))) :
    b.findWord id = (id / 63, id % 63, k, totalLits (b.words.take k)) := by
  unfold Bitvec.findWord
  simp only [bitLength_sub_one, heq]
  rw [if_neg (fun hc => absurd hc.1 (Nat.ne_of_lt hk))]

/-- `findWord` outcome when the scan falls off the end but the conceptual
index is at most one past the committed words: it designates the active word. -/
theorem findWord_active (b : Bitvec) (id : Nat) (hT : totalLits b.words ≤ id / 63)
    (hT2 : ¬ totalLits b.words + 1 < id / 63) :
    b.findWord id = (id / 63, id % 63, b.words.length, totalLits b.words) := by
  unfold Bitvec.findWord
  simp only [bitLength_sub_one, findWordLoop_complete0 b.words (id / 63) hT]
  rw [if_neg (fun hc => absurd hc.2 hT2)]

/-- `findWord` outcome when the conceptual index is more than one past the
committed words: the returned array index runs past the array length. -/
theorem findWord_oob (b : Bitvec) (id : Nat) (hT2 : totalLits b.words + 1 < id / 63) :
    b.findWord id = (id / 63, id % 63, b.words.length + 1, totalLits b.words) := by
  unfold Bitvec.findWord
  simp only [bitLength_sub_one, findWordLoop_complete0 b.words (id / 63) (by omega)]
  rw [if_pos ⟨trivial, hT2⟩]

/-- For an in-range position, `Get` reads exactly the abstract bit sequence. -/
theorem Get_spec (b : Bitvec) (id : Nat) (h : WF b) (hid : id < b.size) :
    b.Get id = (toBits b).getD id false := by
  have hco : 63 * (id / 63) + id % 63 = id := Nat.div_add_mod id 63
  have hoff : id % 63 < 63 := Nat.mod_lt _ (by omega)
  have hsz := h.size_eq
  have hol := h.offset_lt
  by_cases hin : id / 63 < totalLits b.words
  · obtain ⟨k, hk, heq, hlo, hhi⟩ := findWordLoop_stop0 b.words (id / 63) (by omega)
    rw [Bitvec.Get, findWord_stop b id k hk heq]
    dsimp only
    rw [if_neg (by omega : ¬ k = b.words.length), if_neg (by omega : ¬ k > b.words.length)]
    have hrhs := getD_bitsOfWords b.words k (id / 63) (id % 63) h.words_wf hk hoff hlo hhi
    rw [show id / 63 * 63 + id % 63 = id by omega] at hrhs
    have hlen : id < (bitsOfWords b.words).length := by
      rw [length_bitsOfWords]
      have h2 : (id / 63 + 1) * 63 ≤ totalLits b.words * 63 := Nat.mul_le_mul_right 63 hin
      omega
    rw [toBits, List.getD_append _ _ _ _ hlen, hrhs]
    by_cases h63 : (b.words.getD k 0).testBit 63 = true
    · rw [if_pos ((and_fillFlag_ne _).mpr h63), if_pos h63]
      exact bne_and_onesFlag _
    · simp only [Bool.not_eq_true] at h63
      rw [if_neg (fun hc => absurd ((and_fillFlag_ne _).mp hc) (by rw [h63]; decide)),
        if_neg (by rw [h63]; decide)]
      exact bne_and_single _ _
  · have hTeq : id / 63 = totalLits b.words := by omega
    have hoffo : id % 63 < b.offset := by omega
    rw [Bitvec.Get, findWord_active b id (by omega) (by omega)]
    dsimp only
    rw [if_pos rfl]
    have hrhs : (toBits b).getD id false = b.active.testBit (id % 63) := by
      rw [toBits]
      rw [List.getD_append_right _ _ _ _ (by rw [length_bitsOfWords]; omega)]
      rw [length_bitsOfWords]
      rw [show id - totalLits b.words * 63 = id % 63 by omega]
      rw [getD_range_map, if_pos hoffo]
    rw [hrhs]
    exact bne_and_single _ _

/-- Out-of-range behaviour of `Get`: it never fails; it returns `false` except
when the conceptual literal-word index is exactly one past the committed words,
where it reads a (possibly garbage) bit of the uncommitted active word. -/
theorem Get_oob (b : Bitvec) (id : Nat) (h : WF b) (hid : b.size ≤ id) :
    b.Get id =
      (if id / 63 = totalLits b.words + 1 then b.active.testBit (id % 63) else false) := by
  have hco : 63 * (id / 63) + id % 63 = id := Nat.div_add_mod id 63
  have hoff : id % 63 < 63 := Nat.mod_lt _ (by omega)
  have hsz := h.size_eq
  have hol := h.offset_lt
  have hTle : totalLits b.words ≤ id / 63 := by omega
  rcases Nat.lt_trichotomy (id / 63) (totalLits b.words + 1) with hc | hc | hc
  · have hTeq : id / 63 = totalLits b.words := by omega
    rw [Bitvec.Get, findWord_active b id (by omega) (by omega)]
    dsimp only
    rw [if_pos rfl, if_neg (by omega)]
    have hbit : b.active.testBit (id % 63) = false := by
      apply Nat.testBit_lt_two_pow
      calc b.active < 2 ^ b.offset := h.active_lt
        _ ≤ 2 ^ (id % 63) := Nat.pow_le_pow_right (by omega) (by omega)
    rw [bne_and_single]
    exact hbit
  · rw [Bitvec.Get, findWord_active b id (by omega) (by omega)]
    dsimp only
    rw [if_pos rfl, if_pos hc]
    exact bne_and_single _ _
  · rw [Bitvec.Get, findWord_oob b id (by omega)]
    dsimp only
    rw [if_neg (by omega), if_pos (by omega), if_neg (by omega)]

/-! ### `flushWord` specification -/

theorem fillFlag_fillW : fillFlag = fillW false 0 := by decide

theorem fillOnes_fillW : fillFlag ||| onesFlag = fillW true 0 := by decide

theorem bitsOfWords_singleton (w : Nat) : bitsOfWords [w] = wordBits w := by
  simp [bitsOfWords]

theorem totalLits_singleton (w : Nat) : totalLits [w] = wordLits w := by
  simp [totalLits]

theorem wordBits_fillW_zero (pol : Bool) :
    wordBits (fillW pol 0) = List.replicate 63 pol := by
  rw [wordBits_fill pol 0 (by omega)]

theorem mem_getD_last (ws : List Nat) (h : 0 < ws.length) :
    ws.getD (ws.length - 1) 0 ∈ ws := by
  rw [List.getD_eq_getElem ws 0 (by omega)]
  exact List.getElem_mem _

/-- Incrementing a last-position fill with headroom appends one more
literal-equivalent of its polarity. -/
theorem set_last_incr_spec (ws : List Nat) (pol : Bool) (c : Nat)
    (hne : 0 < ws.length) (htop : ws.getD (ws.length - 1) 0 = fillW pol c)
    (hc : c + 1 < 2 ^ 62) (hwf : ∀ w ∈ ws, wfWord w) :
    (∀ w ∈ ws.set (ws.length - 1) (ws.getD (ws.length - 1) 0 + 1), wfWord w) ∧
    bitsOfWords (ws.set (ws.length - 1) (ws.getD (ws.length - 1) 0 + 1)) =
      bitsOfWords ws ++ List.replicate 63 pol ∧
    totalLits (ws.set (ws.length - 1) (ws.getD (ws.length - 1) 0 + 1)) = totalLits ws + 1 := by
  have hlen1 : ws.length - 1 + 1 = ws.length := by omega
  have hsplit : ws = ws.take (ws.length - 1) ++ [ws.getD (ws.length - 1) 0] := by
    have h1 := take_getD_drop ws (ws.length - 1) (by omega)
    rwa [hlen1, List.drop_length] at h1
  have hset : ws.set (ws.length - 1) (ws.getD (ws.length - 1) 0 + 1) =
      ws.take (ws.length - 1) ++ [ws.getD (ws.length - 1) 0 + 1] := by
    have h1 := set_take_drop ws (ws.length - 1) (ws.getD (ws.length - 1) 0 + 1) (by omega)
    rwa [hlen1, List.drop_length] at h1
  have hsucc : ws.getD (ws.length - 1) 0 + 1 = fillW pol (c + 1) := by
    rw [htop, fillW_succ]
  refine ⟨?_, ?_, ?_⟩
  · intro w hw
    rcases List.mem_or_eq_of_mem_set hw with hmem | heqw
    · exact hwf w hmem
    · subst heqw
      rw [hsucc]
      exact ⟨fillW_lt pol (c + 1) hc, fun hf => absurd (fillW_testBit63 pol (c + 1) hc) (by rw [hf]; decide)⟩
  · rw [hset, hsucc]
    conv_rhs => rw [hsplit]
    rw [bitsOfWords_append, bitsOfWords_append, bitsOfWords_singleton, bitsOfWords_singleton,
      htop, wordBits_fill pol (c + 1) hc, wordBits_fill pol c (by omega),
      show (c + 1 + 1) * 63 = (c + 1) * 63 + 63 by ring, List.replicate_add]
    simp
  · rw [hset, hsucc]
    conv_rhs => rw [hsplit]
    rw [totalLits_append, totalLits_append, totalLits_singleton, totalLits_singleton,
      htop, wordLits_fill pol (c + 1) hc, wordLits_fill pol c (by omega)]
    omega

theorem litBits_zerosLiteral : litBits zerosLiteral = List.replicate 63 false := by decide

theorem wf_fillFlag : wfWord fillFlag := by
  constructor
  · decide
  · intro h
    exact absurd h (by decide)

theorem wf_fillOnes : wfWord (fillFlag ||| onesFlag) := by
  constructor
  · decide
  · intro h
    exact absurd h (by decide)

theorem wordLits_fillFlag : wordLits fillFlag = 1 := by decide

theorem wordLits_fillOnes : wordLits (fillFlag ||| onesFlag) = 1 := by decide

theorem wordBits_fillFlag : wordBits fillFlag = List.replicate 63 false := by decide

theorem wordBits_fillOnes : wordBits (fillFlag ||| onesFlag) = List.replicate 63 true := by decide

/-- Specification of `flushWord`: it commits the 63 bits of the active word to
the committed sequence (merging into a trailing same-polarity fill with
headroom when possible) and resets the active word. -/
theorem flushWord_spec (b : Bitvec) (hwf : ∀ w ∈ b.words, wfWord w)
    (hact : b.active < 2 ^ 63) :
    (∀ w ∈ (Bitvec.flushWord b).words, wfWord w) ∧
    bitsOfWords (Bitvec.flushWord b).words = bitsOfWords b.words ++ litBits b.active ∧
    totalLits (Bitvec.flushWord b).words = totalLits b.words + 1 ∧
    (Bitvec.flushWord b).active = 0 ∧ (Bitvec.flushWord b).offset = 0 ∧
    (Bitvec.flushWord b).size = b.size := by
  unfold Bitvec.flushWord
  dsimp only
  by_cases h0 : b.active = zerosLiteral
  · rw [if_pos h0]
    by_cases hm : 0 < b.words.length ∧
        isZerosFill (b.words.getD (b.words.length - 1) 0) ∧
        hasSpace (b.words.getD (b.words.length - 1) 0)
    · rw [if_pos hm]
      obtain ⟨hn, hz, hs⟩ := hm
      have hw64 := (hwf _ (mem_getD_last b.words hn)).1
      have h63 : (b.words.getD (b.words.length - 1) 0).testBit 63 = true :=
        ((isZerosFill_iff _).mp hz).1
      have h62 : (b.words.getD (b.words.length - 1) 0).testBit 62 = false :=
        ((isZerosFill_iff _).mp hz).2
      obtain ⟨hdec, hclt⟩ := fill_decomp _ hw64 h63
      rw [h62] at hdec
      have hcc : (b.words.getD (b.words.length - 1) 0 &&& countMask) + 1 < 2 ^ 62 := by
        have h1 := (hasSpace_iff _).mp hs
        rw [and_countMask]
        omega
      obtain ⟨hwf2, hbits, htl⟩ :=
        set_last_incr_spec b.words false (b.words.getD (b.words.length - 1) 0 &&& countMask)
          hn hdec hcc hwf
      refine ⟨hwf2, ?_, htl, rfl, rfl, rfl⟩
      rw [hbits, h0, litBits_zerosLiteral]
    · rw [if_neg hm]
      refine ⟨?_, ?_, ?_, rfl, rfl, rfl⟩
      · intro w hw
        rcases List.mem_append.mp hw with h1 | h1
        · exact hwf w h1
        · rw [List.mem_singleton.mp h1]
          exact wf_fillFlag
      · rw [bitsOfWords_append, bitsOfWords_singleton, wordBits_fillFlag, h0,
          litBits_zerosLiteral]
      · rw [totalLits_append, totalLits_singleton, wordLits_fillFlag]
  · rw [if_neg h0]
    by_cases h1 : b.active = onesLiteral
    · rw [if_pos h1]
      by_cases hm : 0 < b.words.length ∧
          isOnesFill (b.words.getD (b.words.length - 1) 0) ∧
          hasSpace (b.words.getD (b.words.length - 1) 0)
      · rw [if_pos hm]
        obtain ⟨hn, hz, hs⟩ := hm
        have hw64 := (hwf _ (mem_getD_last b.words hn)).1
        have h63 : (b.words.getD (b.words.length - 1) 0).testBit 63 = true :=
          ((isOnesFill_iff _).mp hz).1
        have h62 : (b.words.getD (b.words.length - 1) 0).testBit 62 = true :=
          ((isOnesFill_iff _).mp hz).2
        obtain ⟨hdec, hclt⟩ := fill_decomp _ hw64 h63
        rw [h62] at hdec
        have hcc : (b.words.getD (b.words.length - 1) 0 &&& countMask) + 1 < 2 ^ 62 := by
          have hsp := (hasSpace_iff _).mp hs
          rw [and_countMask]
          omega
        obtain ⟨hwf2, hbits, htl⟩ :=
          set_last_incr_spec b.words true (b.words.getD (b.words.length - 1) 0 &&& countMask)
            hn hdec hcc hwf
        refine ⟨hwf2, ?_, htl, rfl, rfl, rfl⟩
        rw [hbits, h1, litBits_ones]
      · rw [if_neg hm]
        refine ⟨?_, ?_, ?_, rfl, rfl, rfl⟩
        · intro w hw
          rcases List.mem_append.mp hw with h2 | h2
          · exact hwf w h2
          · rw [List.mem_singleton.mp h2]
            exact wf_fillOnes
        · rw [bitsOfWords_append, bitsOfWords_singleton, wordBits_fillOnes, h1, litBits_ones]
        · rw [totalLits_append, totalLits_singleton, wordLits_fillOnes]
    · rw [if_neg h1]
      have h63a : b.active.testBit 63 = false := testBit63_of_lt _ hact
      refine ⟨?_, ?_, ?_, rfl, rfl, rfl⟩
      · intro w hw
        rcases List.mem_append.mp hw with h2 | h2
        · exact hwf w h2
        · rw [List.mem_singleton.mp h2]
          refine ⟨by omega, fun _ => ⟨?_, h1⟩⟩
          rcases Nat.eq_zero_or_pos b.active with hz | hp
          · exact absurd (hz ▸ rfl) h0
          · exact hp
      · rw [bitsOfWords_append, bitsOfWords_singleton, wordBits_lit _ h63a]
      · rw [totalLits_append, totalLits_singleton, wordLits_lit _ h63a]

/-! ### Active-word lemmas and `append` -/

theorem activePart_extend (a n : Nat) (ha : a < 2 ^ n) (x : Bool) :
    (List.range (n + 1)).map (if x then a ||| 1 <<< n else a).testBit =
      (List.range n).map a.testBit ++ [x] := by
  rw [List.range_succ, List.map_append]
  congr 1
  · apply List.map_congr_left
    intro k hk
    have hkn : k < n := List.mem_range.mp hk
    by_cases hx : x = true
    · rw [if_pos hx, or_single_testBit, decide_eq_false (by omega : ¬ n = k), Bool.or_false]
    · rw [if_neg hx]
  · simp only [List.map_cons, List.map_nil]
    congr 1
    by_cases hx : x = true
    · rw [if_pos hx, or_single_testBit, hx]
      simp
    · rw [if_neg hx, Nat.testBit_lt_two_pow ha]
      exact ((Bool.not_eq_true x).mp hx).symm

theorem activePart_or (a n k : Nat) (hk : k < n) :
    (List.range n).map (a ||| 1 <<< k).testBit = ((List.range n).map a.testBit).set k true := by
  apply List.ext_get
  · simp
  · intro i h1 h2
    simp only [List.get_eq_getElem, List.getElem_map, List.getElem_range, List.getElem_set]
    have hi : i < n := by simpa using h1
    rw [or_single_testBit]
    by_cases hik : k = i
    · subst hik
      simp
    · rw [if_neg hik]
      simp [hik]

theorem activePart_and (a n k : Nat) (hk : k < n) (hn : n ≤ 64) :
    (List.range n).map (a &&& compl64 (1 <<< k)).testBit =
      ((List.range n).map a.testBit).set k false := by
  apply List.ext_get
  · simp
  · intro i h1 h2
    simp only [List.get_eq_getElem, List.getElem_map, List.getElem_range, List.getElem_set]
    have hi : i < n := by simpa using h1
    rw [andc_single_testBit _ _ _ (by omega)]
    by_cases hik : k = i
    · subst hik
      simp
    · rw [if_neg hik]
      simp [hik]

/-- Specification of `append`: it pushes one logical bit. -/
theorem append_spec (b : Bitvec) (x : Bool) (h : WF b) :
    WF (Bitvec.append b x) ∧ toBits (Bitvec.append b x) = toBits b ++ [x] ∧
    (Bitvec.append b x).size = b.size + 1 := by
  have hol := h.offset_lt
  have hal := h.active_lt
  have hsz := h.size_eq
  unfold Bitvec.append
  dsimp only
  by_cases hfl : b.offset + 1 = bitLength - 1
  · rw [if_pos hfl]
    rw [bitLength_sub_one] at hfl
    have ha63 : (if x then b.active ||| 1 <<< b.offset else b.active) < 2 ^ 63 := by
      have h1 : b.active < 2 ^ 63 :=
        lt_of_lt_of_le hal (Nat.pow_le_pow_right (by omega) (by omega))
      by_cases hx : x = true
      · rw [if_pos hx]
        apply Nat.or_lt_two_pow h1
        rw [Nat.one_shiftLeft]
        exact Nat.pow_lt_pow_right (by omega) (by omega)
      · rw [if_neg hx]
        exact h1
    obtain ⟨hwf2, hbits, htl, hact2, hoff2, hsz2⟩ :=
      flushWord_spec { b with active := if x then b.active ||| 1 <<< b.offset else b.active,
                              offset := b.offset + 1, size := b.size + 1 } h.words_wf ha63
    refine ⟨⟨by rw [hoff2]; omega, by rw [hact2, hoff2]; omega, hwf2, ?_⟩, ?_, by rw [hsz2]⟩
    · rw [hsz2, htl, hoff2]
      dsimp only
      omega
    · rw [toBits, hbits, hact2, hoff2]
      dsimp only
      have hlit : litBits (if x then b.active ||| 1 <<< b.offset else b.active) =
          (List.range b.offset).map b.active.testBit ++ [x] := by
        rw [litBits, show (63 : Nat) = b.offset + 1 by omega]
        exact activePart_extend b.active b.offset hal x
      rw [hlit, toBits]
      simp
  · rw [if_neg hfl]
    rw [bitLength_sub_one] at hfl
    refine ⟨⟨by dsimp only; omega, ?_, h.words_wf, by dsimp only; omega⟩, ?_, rfl⟩
    · dsimp only
      have h1 : b.active < 2 ^ (b.offset + 1) :=
        lt_of_lt_of_le hal (Nat.pow_le_pow_right (by omega) (by omega))
      by_cases hx : x = true
      · rw [if_pos hx]
        apply Nat.or_lt_two_pow h1
        rw [Nat.one_shiftLeft]
        exact Nat.pow_lt_pow_right (by omega) (by omega)
      · rw [if_neg hx]
        exact h1
    · rw [toBits, toBits]
      dsimp only
      rw [activePart_extend b.active b.offset hal x]
      simp

/-! ### Zero extension: iterated `flushWord` and the gap-filling path of `Set` -/

theorem flushIter_spec (m : Nat) (b : Bitvec) (hwf : ∀ w ∈ b.words, wfWord w)
    (hact : b.active < 2 ^ 63) (hm : 0 < m) :
    (∀ w ∈ (Bitvec.flushWord^[m] b).words, wfWord w) ∧
    bitsOfWords (Bitvec.flushWord^[m] b).words =
      bitsOfWords b.words ++ litBits b.active ++ List.replicate ((m - 1) * 63) false ∧
    totalLits (Bitvec.flushWord^[m] b).words = totalLits b.words + m ∧
    (Bitvec.flushWord^[m] b).active = 0 ∧ (Bitvec.flushWord^[m] b).offset = 0 ∧
    (Bitvec.flushWord^[m] b).size = b.size := by
  induction m generalizing b with
  | zero => omega
  | succ k ih =>
    by_cases hk : k = 0
    · subst hk
      rw [Function.iterate_one]
      obtain ⟨h1, h2, h3, h4, h5, h6⟩ := flushWord_spec b hwf hact
      exact ⟨h1, by simpa using h2, by omega, h4, h5, h6⟩
    · rw [Function.iterate_succ_apply]
      obtain ⟨f1, f2, f3, f4, f5, f6⟩ := flushWord_spec b hwf hact
      obtain ⟨g1, g2, g3, g4, g5, g6⟩ :=
        ih (Bitvec.flushWord b) f1 (by rw [f4]; exact Nat.two_pow_pos 63) (by omega)
      refine ⟨g1, ?_, by omega, g4, g5, by rw [g6, f6]⟩
      rw [g2, f2, f4, litBits_zero]
      rw [show (k + 1 - 1) * 63 = 63 + (k - 1) * 63 by omega, List.replicate_add]
      simp [List.append_assoc]

theorem activePart_zero (n : Nat) :
    (List.range n).map (0 : Nat).testBit = List.replicate n false := by
  rw [List.map_congr_left (fun k _ => Nat.zero_testBit k), List.map_const']
  simp

theorem activePart_pad (a n m : Nat) (ha : a < 2 ^ n) (hnm : n ≤ m) :
    (List.range m).map a.testBit =
      (List.range n).map a.testBit ++ List.replicate (m - n) false := by
  induction m, hnm using Nat.le_induction with
  | base => simp
  | succ m hm ihm =>
    rw [List.range_succ, List.map_append, ihm]
    have hbit : a.testBit m = false :=
      Nat.testBit_lt_two_pow (lt_of_lt_of_le ha (Nat.pow_le_pow_right (by omega) hm))
    rw [show m + 1 - n = (m - n) + 1 by omega, List.replicate_succ']
    simp only [List.map_cons, List.map_nil, hbit, List.append_assoc]

/-- The gap-extension prefix of `Set` (the `id > size` branch before the final
append): it pads the logical sequence with `id - size` zeros. -/
theorem extend_spec (b : Bitvec) (id : Nat) (h : WF b) (hgt : b.size < id) :
    WF { (Bitvec.flushWord^[(b.offset + id - b.size) / 63] b) with
         offset := (b.offset + id - b.size) % 63, size := id } ∧
    toBits { (Bitvec.flushWord^[(b.offset + id - b.size) / 63] b) with
             offset := (b.offset + id - b.size) % 63, size := id } =
      toBits b ++ List.replicate (id - b.size) false ∧
    totalLits { (Bitvec.flushWord^[(b.offset + id - b.size) / 63] b) with
                offset := (b.offset + id - b.size) % 63, size := id }.words =
      totalLits b.words + (b.offset + id - b.size) / 63 := by
  have hol := h.offset_lt
  have hal := h.active_lt
  have hsz := h.size_eq
  have hco : 63 * ((b.offset + id - b.size) / 63) + (b.offset + id - b.size) % 63 =
      b.offset + id - b.size := Nat.div_add_mod _ 63
  have hmod : (b.offset + id - b.size) % 63 < 63 := Nat.mod_lt _ (by omega)
  by_cases hnw : (b.offset + id - b.size) / 63 = 0
  · rw [hnw]
    rw [Function.iterate_zero_apply]
    have hoffeq : (b.offset + id - b.size) % 63 = b.offset + id - b.size := by omega
    refine ⟨⟨by dsimp only; omega, ?_, h.words_wf, by dsimp only; omega⟩, ?_, by simp⟩
    · dsimp only
      calc b.active < 2 ^ b.offset := hal
        _ ≤ 2 ^ ((b.offset + id - b.size) % 63) := Nat.pow_le_pow_right (by omega) (by omega)
    · rw [toBits, toBits]
      dsimp only
      rw [hoffeq, activePart_pad b.active b.offset (b.offset + id - b.size) hal (by omega)]
      rw [show b.offset + id - b.size - b.offset = id - b.size by omega]
      simp [List.append_assoc]
  · obtain ⟨g1, g2, g3, g4, g5, g6⟩ :=
      flushIter_spec ((b.offset + id - b.size) / 63) b h.words_wf
        (lt_of_lt_of_le hal (Nat.pow_le_pow_right (by omega) (by omega))) (by omega)
    refine ⟨⟨by dsimp only; omega, ?_, g1, ?_⟩, ?_, by dsimp only; omega⟩
    · dsimp only
      rw [g4]
      exact Nat.two_pow_pos _
    · dsimp only
      rw [g3]
      omega
    · rw [toBits, toBits]
      dsimp only
      rw [g2, g4, activePart_zero]
      rw [litBits, activePart_pad b.active b.offset 63 hal (by omega)]
      rw [show id - b.size = (63 - b.offset) + (((b.offset + id - b.size) / 63 - 1) * 63
            + (b.offset + id - b.size) % 63) by omega,
        List.replicate_add, List.replicate_add]
      simp [List.append_assoc]
      omega

/-! ### List surgery and literal-word lemmas for the update path -/

theorem insertAt_eq (l1 l2 : List Nat) (a : Nat) (i : Nat) (hi : i = l1.length) :
    Bitvec.insertAt (l1 ++ l2) i a = l1 ++ a :: l2 := by
  subst hi
  rw [Bitvec.insertAt, List.take_left, List.drop_left]

theorem set_middle (l1 l2 l3 : List Bool) (p : Nat) (v : Bool) (hp : p < l2.length) :
    (l1 ++ (l2 ++ l3)).set (l1.length + p) v = l1 ++ (l2.set p v ++ l3) := by
  rw [List.set_append, if_neg (by omega), Nat.add_sub_cancel_left,
    List.set_append, if_pos hp]

theorem litBits_or (w off : Nat) (hoff : off < 63) :
    litBits (w ||| 1 <<< off) = (litBits w).set off true := by
  rw [litBits, litBits]
  exact activePart_or w 63 off hoff

theorem litBits_and (w off : Nat) (hoff : off < 63) :
    litBits (w &&& compl64 (1 <<< off)) = (litBits w).set off false := by
  rw [litBits, litBits]
  exact activePart_and w 63 off hoff (by omega)

theorem set_of_getD (l : List Bool) (n : Nat) (v : Bool) (hn : n < l.length)
    (hv : l.getD n false = v) : l.set n v = l := by
  apply List.ext_get
  · simp
  · intro i h1 h2
    simp only [List.get_eq_getElem, List.getElem_set]
    by_cases hni : n = i
    · subst hni
      rw [if_pos rfl, ← hv, List.getD_eq_getElem l false hn]
    · rw [if_neg hni]

theorem fillW_head (pol : Bool) (c : Nat) (hc : c < 2 ^ 62) :
    fillW pol c &&& (fillFlag ||| onesFlag) = fillW pol 0 := by
  rw [head_eq, fillW_testBit63 pol c hc, fillW_testBit62 pol c hc]
  cases pol <;> simp [fillW]

theorem fillW_or (pol : Bool) (m : Nat) (hm : m < 2 ^ 62) :
    fillW pol 0 ||| m = fillW pol m := by
  unfold fillW
  rw [Nat.add_zero, ← Nat.mul_add_lt_is_or hm]

theorem wf_fillW (pol : Bool) (c : Nat) (hc : c < 2 ^ 62) : wfWord (fillW pol c) := by
  refine ⟨fillW_lt pol c hc, fun hf => ?_⟩
  rw [fillW_testBit63 pol c hc] at hf
  exact absurd hf (by decide)

theorem pow_off_lt_onesLiteral (off : Nat) (hoff : off < 63) : 1 <<< off < onesLiteral := by
  rw [Nat.one_shiftLeft, onesLiteral_val]
  have h1 : 2 ^ off ≤ 2 ^ 62 := Nat.pow_le_pow_right (by omega) (by omega)
  omega

theorem wf_lit_or (w off : Nat) (hw : w < 2 ^ 63) (hoff : off < 63)
    (hne : w ||| 1 <<< off ≠ onesLiteral) : wfWord (w ||| 1 <<< off) := by
  have h1 : w ||| 1 <<< off < 2 ^ 63 := by
    apply Nat.or_lt_two_pow hw
    rw [Nat.one_shiftLeft]
    exact Nat.pow_lt_pow_right (by omega) (by omega)
  refine ⟨by omega, fun _ => ⟨?_, hne⟩⟩
  have h2 : (w ||| 1 <<< off).testBit off = true := by
    rw [or_single_testBit]
    simp
  have := Nat.testBit_implies_ge h2
  have := Nat.two_pow_pos off
  omega

theorem wf_lit_and (w off : Nat) (hw : w < 2 ^ 63) (hoff : off < 63)
    (hne : w &&& compl64 (1 <<< off) ≠ zerosLiteral) : wfWord (w &&& compl64 (1 <<< off)) := by
  have h1 : w &&& compl64 (1 <<< off) ≤ w := Nat.and_le_left
  refine ⟨by omega, fun _ => ⟨?_, ?_⟩⟩
  · have := Nat.pos_of_ne_zero hne
    omega
  · intro heq
    have hbit : (w &&& compl64 (1 <<< off)).testBit off = false := by
      rw [andc_single_testBit _ _ _ (by omega)]
      simp
    rw [heq, onesLiteral_testBit] at hbit
    simp only [decide_eq_false_iff_not] at hbit
    omega

theorem set_take_drop_bool (l : List Bool) (k : Nat) (v : Bool) (hk : k < l.length) :
    l.set k v = l.take k ++ v :: l.drop (k + 1) := by
  rw [List.set_eq_take_append_cons_drop, if_pos hk]

theorem replicate_set (n k : Nat) (a v : Bool) (hk : k < n) :
    (List.replicate n a).set k v =
      List.replicate k a ++ (v :: List.replicate (n - k - 1) a) := by
  rw [set_take_drop_bool _ _ _ (by simpa using hk), List.take_replicate, List.drop_replicate,
    Nat.min_eq_left (Nat.le_of_lt hk), Nat.sub_sub]

theorem litBits_single (off : Nat) (hoff : off < 63) :
    litBits (1 <<< off) = (List.replicate 63 false).set off true := by
  rw [← Nat.zero_or (1 <<< off), litBits_or 0 off hoff, litBits_zero]

theorem ones_xor_eq_and (off : Nat) (hoff : off < 63) :
    compl64 fillFlag ^^^ (1 <<< off) = onesLiteral &&& compl64 (1 <<< off) := by
  apply Nat.eq_of_testBit_eq
  intro j
  have hc : compl64 fillFlag = onesLiteral := rfl
  rw [hc, Nat.testBit_xor, Nat.testBit_land, compl64_testBit, onesLiteral_testBit,
    Nat.one_shiftLeft, Nat.testBit_two_pow]
  by_cases hoj : off = j
  · subst hoj
    simp [show off < 64 by omega, hoff]
  · by_cases hj : j < 63
    · simp [hoj, hj, show j < 64 by omega]
    · simp [hoj, hj]

theorem litBits_onesclear (off : Nat) (hoff : off < 63) :
    litBits (compl64 fillFlag ^^^ (1 <<< off)) = (List.replicate 63 true).set off false := by
  rw [ones_xor_eq_and off hoff, litBits_and onesLiteral off hoff, litBits_ones]

theorem single_lt_63 (off : Nat) (hoff : off < 63) : 1 <<< off < 2 ^ 63 := by
  rw [Nat.one_shiftLeft]
  exact Nat.pow_lt_pow_right (by omega) hoff

theorem wf_lit_single (off : Nat) (hoff : off < 63) : wfWord (1 <<< off) := by
  have h1 := single_lt_63 off hoff
  have h2 := pow_off_lt_onesLiteral off hoff
  refine ⟨by omega, fun _ => ⟨?_, by omega⟩⟩
  rw [Nat.one_shiftLeft]
  exact Nat.two_pow_pos off

theorem onesclear_lt (off : Nat) (hoff : off < 63) :
    compl64 fillFlag ^^^ (1 <<< off) < 2 ^ 63 := by
  apply Nat.xor_lt_two_pow
  · have : compl64 fillFlag = onesLiteral := rfl
    rw [this, onesLiteral_val]
    omega
  · exact single_lt_63 off hoff

theorem wf_lit_onesclear (off : Nat) (hoff : off < 63) :
    wfWord (compl64 fillFlag ^^^ (1 <<< off)) := by
  rw [ones_xor_eq_and off hoff]
  apply wf_lit_and onesLiteral off (by rw [onesLiteral_val]; omega) hoff
  intro h0
  have hbit : (onesLiteral &&& compl64 (1 <<< off)).testBit (if off = 0 then 1 else 0) = true := by
    rw [andc_single_testBit _ _ _ (by split <;> omega), onesLiteral_testBit]
    by_cases h : off = 0
    · simp [h]
    · simp [h]
  rw [h0] at hbit
  simp [zerosLiteral] at hbit

theorem wordLits_litword (w : Nat) (hw : w < 2 ^ 63) : wordLits w = 1 :=
  wordLits_lit w (testBit63_of_lt w hw)

theorem wordBits_litword (w : Nat) (hw : w < 2 ^ 63) : wordBits w = litBits w :=
  wordBits_lit w (testBit63_of_lt w hw)

theorem bitsOfWords_cons (w : Nat) (ws : List Nat) :
    bitsOfWords (w :: ws) = wordBits w ++ bitsOfWords ws := rfl

theorem totalLits_cons (w : Nat) (ws : List Nat) :
    totalLits (w :: ws) = wordLits w + totalLits ws := rfl

theorem bitsOfWords_nil : bitsOfWords [] = [] := rfl

theorem totalLits_nil : totalLits [] = 0 := rfl

/-- Specification of `updateFill`: splitting the fill at list position `k`
around the flipped bit at literal-equivalent offset `target`, bit offset
`off`, realises a point update of the logical bit sequence. -/
theorem updateFill_spec (b : Bitvec) (k target off : Nat) (x pol : Bool) (c : Nat)
    (hwf : ∀ u ∈ b.words, wfWord u)
    (hk : k < b.words.length) (hw : b.words.getD k 0 = fillW pol c) (hc : c < 2 ^ 62)
    (htc : target ≤ c) (hoff : off < 63) (hx : x = !pol) :
    (∀ u ∈ (Bitvec.updateFill b k target off x).words, wfWord u) ∧
    bitsOfWords (Bitvec.updateFill b k target off x).words =
      (bitsOfWords b.words).set (totalLits (b.words.take k) * 63 + (target * 63 + off)) x ∧
    totalLits (Bitvec.updateFill b k target off x).words = totalLits b.words ∧
    (Bitvec.updateFill b k target off x).active = b.active ∧
    (Bitvec.updateFill b k target off x).offset = b.offset ∧
    (Bitvec.updateFill b k target off x).size = b.size := by
  have hA : (b.words.take k).length = k := by
    rw [List.length_take]
    omega
  have hsplit : b.words = b.words.take k ++ fillW pol c :: b.words.drop (k + 1) := by
    conv_lhs => rw [take_getD_drop b.words k hk]
    rw [hw]
  have hlit63 : (if x then 1 <<< off else compl64 fillFlag ^^^ (1 <<< off)) < 2 ^ 63 := by
    split
    · exact single_lt_63 off hoff
    · exact onesclear_lt off hoff
  have hlitwf : wfWord (if x then 1 <<< off else compl64 fillFlag ^^^ (1 <<< off)) := by
    split
    · exact wf_lit_single off hoff
    · exact wf_lit_onesclear off hoff
  have hlitbits : litBits (if x then 1 <<< off else compl64 fillFlag ^^^ (1 <<< off)) =
      (List.replicate 63 pol).set off x := by
    cases pol
    · rw [Bool.not_false] at hx
      rw [if_pos hx, litBits_single off hoff, hx]
    · rw [Bool.not_true] at hx
      rw [if_neg (by rw [hx]; exact Bool.false_ne_true), litBits_onesclear off hoff, hx]
  have hbw : bitsOfWords b.words =
      bitsOfWords (b.words.take k) ++
        (List.replicate ((c + 1) * 63) pol ++ bitsOfWords (b.words.drop (k + 1))) := by
    conv_lhs => rw [hsplit]
    rw [bitsOfWords_append, bitsOfWords_cons, wordBits_fill pol c hc]
  have htlw : totalLits b.words =
      totalLits (b.words.take k) + ((c + 1) + totalLits (b.words.drop (k + 1))) := by
    conv_lhs => rw [hsplit]
    rw [totalLits_append, totalLits_cons, wordLits_fill pol c hc]
  have hmemtake : ∀ u ∈ b.words.take k, wfWord u := fun u hu => hwf u (List.mem_of_mem_take hu)
  have hmemdrop : ∀ u ∈ b.words.drop (k + 1), wfWord u :=
    fun u hu => hwf u (List.mem_of_mem_drop hu)
  have hposlt : target * 63 + off < (c + 1) * 63 := by
    have h2 : (target + 1) * 63 ≤ (c + 1) * 63 := Nat.mul_le_mul_right 63 (by omega)
    omega
  have hrhs : (bitsOfWords b.words).set (totalLits (b.words.take k) * 63 + (target * 63 + off)) x =
      bitsOfWords (b.words.take k) ++
        ((List.replicate ((c + 1) * 63) pol).set (target * 63 + off) x ++
          bitsOfWords (b.words.drop (k + 1))) := by
    rw [hbw, show totalLits (b.words.take k) * 63 = (bitsOfWords (b.words.take k)).length from
      (length_bitsOfWords _).symm]
    rw [set_middle _ _ _ _ _ (by rw [List.length_replicate]; exact hposlt)]
  have hmid : (List.replicate ((c + 1) * 63) pol).set (target * 63 + off) x =
      List.replicate (target * 63) pol ++
        ((List.replicate 63 pol).set off x ++ List.replicate ((c - target) * 63) pol) := by
    rw [show (c + 1) * 63 = target * 63 + (63 + (c - target) * 63) by omega,
      List.replicate_add, List.replicate_add]
    rw [show target * 63 + off = (List.replicate (target * 63) pol).length + off by
      rw [List.length_replicate]]
    rw [set_middle _ _ _ _ _ (by rw [List.length_replicate]; omega)]
  unfold Bitvec.updateFill
  dsimp only
  rw [hw, fillW_head pol c hc, fillW_count pol c hc]
  by_cases ht : target > 0
  · rw [if_pos ht]
    dsimp only
    rw [fillW_or pol (target - 1) (by omega)]
    have hs1 : b.words.set k (fillW pol (target - 1)) =
        (b.words.take k ++ [fillW pol (target - 1)]) ++ b.words.drop (k + 1) := by
      rw [set_take_drop _ _ _ hk]
      simp
    have hs2 : Bitvec.insertAt ((b.words.take k ++ [fillW pol (target - 1)]) ++
          b.words.drop (k + 1)) (k + 1)
          (if x then 1 <<< off else compl64 fillFlag ^^^ (1 <<< off)) =
        (b.words.take k ++ [fillW pol (target - 1),
          if x then 1 <<< off else compl64 fillFlag ^^^ (1 <<< off)]) ++
          b.words.drop (k + 1) := by
      rw [insertAt_eq _ _ _ _ (by simp [hA])]
      simp
    rw [hs1, hs2]
    have e1 : wordBits (fillW pol (target - 1)) = List.replicate (target * 63) pol := by
      rw [wordBits_fill pol _ (by omega), show target - 1 + 1 = target by omega]
    have l1 : wordLits (fillW pol (target - 1)) = target := by
      rw [wordLits_fill pol _ (by omega)]
      omega
    by_cases hct : c > target
    · rw [if_pos hct]
      rw [fillW_or pol (c - target - 1) (by omega)]
      rw [insertAt_eq _ _ _ _ (by simp [hA])]
      have e2 : wordBits (fillW pol (c - target - 1)) =
          List.replicate ((c - target) * 63) pol := by
        rw [wordBits_fill pol _ (by omega), show c - target - 1 + 1 = c - target by omega]
      have l2 : wordLits (fillW pol (c - target - 1)) = c - target := by
        rw [wordLits_fill pol _ (by omega)]
        omega
      refine ⟨?_, ?_, ?_, rfl, rfl, rfl⟩
      · intro u hu
        simp only [List.mem_append, List.mem_cons, List.not_mem_nil, or_false] at hu
        rcases hu with (hu | hu | hu) | hu | hu
        · exact hmemtake u hu
        · subst hu; exact wf_fillW pol _ (by omega)
        · subst hu; exact hlitwf
        · subst hu; exact wf_fillW pol _ (by omega)
        · exact hmemdrop u hu
      · rw [hrhs, hmid]
        simp only [bitsOfWords_append, bitsOfWords_cons, bitsOfWords_nil, e1, e2,
          wordBits_litword _ hlit63, hlitbits]
        simp [List.append_assoc]
      · rw [htlw]
        simp only [totalLits_append, totalLits_cons, totalLits_nil, l1, l2,
          wordLits_litword _ hlit63]
        omega
    · rw [if_neg hct]
      refine ⟨?_, ?_, ?_, rfl, rfl, rfl⟩
      · intro u hu
        simp only [List.mem_append, List.mem_cons, List.not_mem_nil, or_false] at hu
        rcases hu with (hu | hu | hu) | hu
        · exact hmemtake u hu
        · subst hu; exact wf_fillW pol _ (by omega)
        · subst hu; exact hlitwf
        · exact hmemdrop u hu
      · rw [hrhs, hmid]
        simp only [bitsOfWords_append, bitsOfWords_cons, bitsOfWords_nil, e1,
          wordBits_litword _ hlit63, hlitbits]
        rw [show (c - target) * 63 = 0 by omega]
        simp [List.append_assoc]
      · rw [htlw]
        simp only [totalLits_append, totalLits_cons, totalLits_nil, l1,
          wordLits_litword _ hlit63]
        omega
  · rw [if_neg ht]
    dsimp only
    have hs1 : b.words.set k (if x then 1 <<< off else compl64 fillFlag ^^^ (1 <<< off)) =
        (b.words.take k ++ [if x then 1 <<< off else compl64 fillFlag ^^^ (1 <<< off)]) ++
          b.words.drop (k + 1) := by
      rw [set_take_drop _ _ _ hk]
      simp
    rw [hs1]
    have htz : target = 0 := by omega
    by_cases hct : c > target
    · rw [if_pos hct]
      rw [fillW_or pol (c - target - 1) (by omega)]
      rw [insertAt_eq _ _ _ _ (by simp [hA])]
      have e2 : wordBits (fillW pol (c - target - 1)) =
          List.replicate ((c - target) * 63) pol := by
        rw [wordBits_fill pol _ (by omega), show c - target - 1 + 1 = c - target by omega]
      have l2 : wordLits (fillW pol (c - target - 1)) = c - target := by
        rw [wordLits_fill pol _ (by omega)]
        omega
      refine ⟨?_, ?_, ?_, rfl, rfl, rfl⟩
      · intro u hu
        simp only [List.mem_append, List.mem_cons, List.not_mem_nil, or_false] at hu
        rcases hu with (hu | hu) | hu | hu
        · exact hmemtake u hu
        · subst hu; exact hlitwf
        · subst hu; exact wf_fillW pol _ (by omega)
        · exact hmemdrop u hu
      · rw [hrhs, hmid]
        simp only [bitsOfWords_append, bitsOfWords_cons, bitsOfWords_nil, e2,
          wordBits_litword _ hlit63, hlitbits]
        simp [List.append_assoc, htz]
      · rw [htlw]
        simp only [totalLits_append, totalLits_cons, totalLits_nil, l2,
          wordLits_litword _ hlit63]
        omega
    · rw [if_neg hct]
      have hceq : c = 0 := by omega
      refine ⟨?_, ?_, ?_, rfl, rfl, rfl⟩
      · intro u hu
        simp only [List.mem_append, List.mem_cons, List.not_mem_nil, or_false] at hu
        rcases hu with (hu | hu) | hu
        · exact hmemtake u hu
        · subst hu; exact hlitwf
        · exact hmemdrop u hu
      · rw [hrhs, hmid]
        simp only [bitsOfWords_append, bitsOfWords_cons, bitsOfWords_nil,
          wordBits_litword _ hlit63, hlitbits]
        rw [show (c - target) * 63 = 0 by omega]
        simp [List.append_assoc, htz]
      · rw [htlw]
        simp only [totalLits_append, totalLits_cons, totalLits_nil,
          wordLits_litword _ hlit63]
        omega

/-- The leftward-merge transformation of `updateLiteral`: incrementing the
preceding fill and deleting slot `k`. -/
theorem merge_words_spec (ws : List Nat) (k : Nat) (wnew : Nat) (pol : Bool) (cp : Nat)
    (hk : k < ws.length) (hk0 : 0 < k)
    (hprev : ws.getD (k - 1) 0 = fillW pol cp) :
    Bitvec.eraseAt ((ws.set k wnew).set (k - 1) (ws.getD (k - 1) 0 + 1)) k =
      ws.take (k - 1) ++ fillW pol (cp + 1) :: ws.drop (k + 1) := by
  have hlen : (ws.take (k - 1)).length = k - 1 := by
    rw [List.length_take]
    omega
  have hsplit3 : ws = ws.take (k - 1) ++ fillW pol cp :: ws.getD k 0 :: ws.drop (k + 1) := by
    conv_lhs => rw [take_getD_drop ws (k - 1) (by omega)]
    rw [hprev, show k - 1 + 1 = k by omega]
    congr 1
    congr 1
    rw [List.getD_eq_getElem ws 0 hk]
    exact (List.getElem_cons_drop ws k hk).symm
  have htk : ∀ (l2 : List Nat), List.take k (ws.take (k - 1) ++ l2) =
      ws.take (k - 1) ++ List.take 1 l2 := by
    intro l2
    have h := @List.take_append _ (ws.take (k - 1)) l2 1
    rwa [hlen, show k - 1 + 1 = k by omega] at h
  have hdk : ∀ (l2 : List Nat), List.drop (k + 1) (ws.take (k - 1) ++ l2) = List.drop 2 l2 := by
    intro l2
    have h := @List.drop_append _ (ws.take (k - 1)) l2 2
    rwa [hlen, show k - 1 + 2 = k + 1 by omega] at h
  have h1 : ws.set k wnew =
      ws.take (k - 1) ++ fillW pol cp :: wnew :: ws.drop (k + 1) := by
    conv_lhs => rw [hsplit3]
    rw [List.set_append, if_neg (by rw [hlen]; omega),
      show k - (ws.take (k - 1)).length = 1 by rw [hlen]; omega,
      List.set_cons_succ, List.set_cons_zero]
  have h2 : (ws.set k wnew).set (k - 1) (ws.getD (k - 1) 0 + 1) =
      ws.take (k - 1) ++ fillW pol (cp + 1) :: wnew :: ws.drop (k + 1) := by
    rw [h1, hprev, fillW_succ, List.set_append, if_neg (by rw [hlen]; omega),
      show k - 1 - (ws.take (k - 1)).length = 0 by rw [hlen]; omega,
      List.set_cons_zero]
  rw [h2, Bitvec.eraseAt, htk, hdk]
  simp

/-- Specification of `updateLiteral`: flipping one bit of the committed
literal at list position `k` realises a point update of the logical bit
sequence (converting / merging the literal when it becomes trivial). -/
theorem updateLiteral_spec (b : Bitvec) (k off : Nat) (x : Bool)
    (hwf : ∀ u ∈ b.words, wfWord u) (hk : k < b.words.length)
    (h63 : (b.words.getD k 0).testBit 63 = false) (hoff : off < 63) :
    (∀ u ∈ (Bitvec.updateLiteral b k off x).words, wfWord u) ∧
    bitsOfWords (Bitvec.updateLiteral b k off x).words =
      (bitsOfWords b.words).set (totalLits (b.words.take k) * 63 + off) x ∧
    totalLits (Bitvec.updateLiteral b k off x).words = totalLits b.words ∧
    (Bitvec.updateLiteral b k off x).active = b.active ∧
    (Bitvec.updateLiteral b k off x).offset = b.offset ∧
    (Bitvec.updateLiteral b k off x).size = b.size := by
  have hwmem : wfWord (b.words.getD k 0) := by
    rw [List.getD_eq_getElem b.words 0 hk]
    exact hwf _ (List.getElem_mem _)
  have hw63 : b.words.getD k 0 < 2 ^ 63 := lit_lt _ hwmem.1 h63
  have hsplit : b.words =
      b.words.take k ++ b.words.getD k 0 :: b.words.drop (k + 1) := take_getD_drop b.words k hk
  have hbw : bitsOfWords b.words =
      bitsOfWords (b.words.take k) ++
        (litBits (b.words.getD k 0) ++ bitsOfWords (b.words.drop (k + 1))) := by
    conv_lhs => rw [hsplit]
    rw [bitsOfWords_append, bitsOfWords_cons, wordBits_litword _ hw63]
  have htlw : totalLits b.words =
      totalLits (b.words.take k) + (1 + totalLits (b.words.drop (k + 1))) := by
    conv_lhs => rw [hsplit]
    rw [totalLits_append, totalLits_cons, wordLits_litword _ hw63]
  have hrhs : (bitsOfWords b.words).set (totalLits (b.words.take k) * 63 + off) x =
      bitsOfWords (b.words.take k) ++
        ((litBits (b.words.getD k 0)).set off x ++ bitsOfWords (b.words.drop (k + 1))) := by
    rw [hbw, show totalLits (b.words.take k) * 63 = (bitsOfWords (b.words.take k)).length from
      (length_bitsOfWords _).symm]
    rw [set_middle _ _ _ _ _ (by rw [length_litBits]; exact hoff)]
  have hsetbits : ∀ v : Nat, v < 2 ^ 63 →
      bitsOfWords (b.words.set k v) =
        bitsOfWords (b.words.take k) ++ (litBits v ++ bitsOfWords (b.words.drop (k + 1))) := by
    intro v hv
    rw [set_take_drop _ _ _ hk, bitsOfWords_append, bitsOfWords_cons, wordBits_litword _ hv]
  have hsetlits1 : ∀ v : Nat, wordLits v = 1 →
      totalLits (b.words.set k v) =
        totalLits (b.words.take k) + (1 + totalLits (b.words.drop (k + 1))) := by
    intro v hv
    rw [set_take_drop _ _ _ hk, totalLits_append, totalLits_cons, hv]
  have hsetbits2 : ∀ v : Nat,
      bitsOfWords (b.words.set k v) =
        bitsOfWords (b.words.take k) ++ (wordBits v ++ bitsOfWords (b.words.drop (k + 1))) := by
    intro v
    rw [set_take_drop _ _ _ hk, bitsOfWords_append, bitsOfWords_cons]
  have hsetwf : ∀ v : Nat, wfWord v → ∀ u ∈ b.words.set k v, wfWord u := by
    intro v hv u hu
    rcases List.mem_or_eq_of_mem_set hu with hm | he
    · exact hwf u hm
    · exact he ▸ hv
  have hmergecase : ∀ (pol : Bool) (wnew : Nat),
      0 < k → (∀ cp, cp + 1 < 2 ^ 62 → b.words.getD (k - 1) 0 = fillW pol cp →
      (litBits (b.words.getD k 0)).set off x = List.replicate 63 pol →
      (∀ u ∈ Bitvec.eraseAt ((b.words.set k wnew).set (k - 1)
          (b.words.getD (k - 1) 0 + 1)) k, wfWord u) ∧
      bitsOfWords (Bitvec.eraseAt ((b.words.set k wnew).set (k - 1)
          (b.words.getD (k - 1) 0 + 1)) k) =
        (bitsOfWords b.words).set (totalLits (b.words.take k) * 63 + off) x ∧
      totalLits (Bitvec.eraseAt ((b.words.set k wnew).set (k - 1)
          (b.words.getD (k - 1) 0 + 1)) k) = totalLits b.words) := by
    intro pol wnew hk0 cp hcp1 hpdec hlitset
    have htake : b.words.take k = b.words.take (k - 1) ++ [b.words.getD (k - 1) 0] := by
      conv_lhs => rw [show k = (k - 1) + 1 by omega]
      rw [List.take_succ, List.getD_eq_getElem b.words 0 (by omega)]
      simp [List.getElem?_eq_getElem (by omega : k - 1 < b.words.length)]
    rw [merge_words_spec b.words k wnew pol cp hk hk0 hpdec]
    refine ⟨?_, ?_, ?_⟩
    · intro u hu
      rcases List.mem_append.mp hu with hu | hu
      · exact hwf u (List.mem_of_mem_take hu)
      · rcases List.mem_cons.mp hu with he | hu
        · exact he ▸ wf_fillW pol _ hcp1
        · exact hwf u (List.mem_of_mem_drop hu)
    · rw [hrhs, hlitset, htake]
      rw [bitsOfWords_append, bitsOfWords_append, bitsOfWords_cons, bitsOfWords_singleton,
        hpdec, wordBits_fill pol _ hcp1, wordBits_fill pol _ (by omega)]
      rw [show (cp + 1 + 1) * 63 = (cp + 1) * 63 + 63 by ring, List.replicate_add]
      simp [List.append_assoc]
    · rw [htlw, htake]
      rw [totalLits_append, totalLits_append, totalLits_cons, totalLits_singleton,
        hpdec, wordLits_fill pol _ hcp1, wordLits_fill pol _ (by omega)]
      omega
  unfold Bitvec.updateLiteral
  dsimp only
  by_cases hx : x = true
  · rw [if_pos hx]
    by_cases hone : b.words.getD k 0 ||| 1 <<< off = onesLiteral
    · rw [if_pos hone]
      have hlitset : (litBits (b.words.getD k 0)).set off x = List.replicate 63 true := by
        rw [hx, ← litBits_or _ _ hoff, hone, litBits_ones]
      by_cases hmg : 0 < k ∧ isOnesFill (b.words.getD (k - 1) 0) ∧
          hasSpace (b.words.getD (k - 1) 0)
      · rw [if_pos hmg]
        obtain ⟨hk0, hof, hsp⟩ := hmg
        have hpmem : wfWord (b.words.getD (k - 1) 0) := by
          rw [List.getD_eq_getElem b.words 0 (by omega)]
          exact hwf _ (List.getElem_mem _)
        have hp63 : (b.words.getD (k - 1) 0).testBit 63 = true := ((isOnesFill_iff _).mp hof).1
        have hp62 : (b.words.getD (k - 1) 0).testBit 62 = true := ((isOnesFill_iff _).mp hof).2
        obtain ⟨hpdec, hpclt⟩ := fill_decomp _ hpmem.1 hp63
        rw [hp62] at hpdec
        have hcp1 : (b.words.getD (k - 1) 0 &&& countMask) + 1 < 2 ^ 62 := by
          have hsp2 := (hasSpace_iff _).mp hsp
          rw [and_countMask]
          omega
        obtain ⟨h1, h2, h3⟩ := hmergecase true _ hk0 _ hcp1 hpdec hlitset
        exact ⟨h1, h2, h3, rfl, rfl, rfl⟩
      · rw [if_neg hmg]
        refine ⟨?_, ?_, ?_, rfl, rfl, rfl⟩
        · exact hsetwf _ wf_fillOnes
        · rw [hsetbits2 _, wordBits_fillOnes, hrhs, hlitset]
        · rw [hsetlits1 _ wordLits_fillOnes, htlw]
    · rw [if_neg hone]
      have hv : b.words.getD k 0 ||| 1 <<< off < 2 ^ 63 := by
        apply Nat.or_lt_two_pow hw63
        exact single_lt_63 off hoff
      refine ⟨?_, ?_, ?_, rfl, rfl, rfl⟩
      · exact hsetwf _ (wf_lit_or _ _ hw63 hoff hone)
      · rw [hsetbits _ hv, hrhs, litBits_or _ _ hoff, hx]
      · rw [htlw]
        exact hsetlits1 _ (wordLits_litword _ hv)
  · rw [if_neg hx]
    have hxf : x = false := by
      cases x
      · rfl
      · exact absurd rfl hx
    by_cases hzero : b.words.getD k 0 &&& compl64 (1 <<< off) = zerosLiteral
    · rw [if_pos hzero]
      have hlitset : (litBits (b.words.getD k 0)).set off x = List.replicate 63 false := by
        rw [hxf, ← litBits_and _ _ hoff, hzero, litBits_zerosLiteral]
      by_cases hmg : 0 < k ∧ isZerosFill (b.words.getD (k - 1) 0) ∧
          hasSpace (b.words.getD (k - 1) 0)
      · rw [if_pos hmg]
        obtain ⟨hk0, hof, hsp⟩ := hmg
        have hpmem : wfWord (b.words.getD (k - 1) 0) := by
          rw [List.getD_eq_getElem b.words 0 (by omega)]
          exact hwf _ (List.getElem_mem _)
        have hp63 : (b.words.getD (k - 1) 0).testBit 63 = true := ((isZerosFill_iff _).mp hof).1
        have hp62 : (b.words.getD (k - 1) 0).testBit 62 = false := ((isZerosFill_iff _).mp hof).2
        obtain ⟨hpdec, hpclt⟩ := fill_decomp _ hpmem.1 hp63
        rw [hp62] at hpdec
        have hcp1 : (b.words.getD (k - 1) 0 &&& countMask) + 1 < 2 ^ 62 := by
          have hsp2 := (hasSpace_iff _).mp hsp
          rw [and_countMask]
          omega
        obtain ⟨h1, h2, h3⟩ := hmergecase false _ hk0 _ hcp1 hpdec hlitset
        exact ⟨h1, h2, h3, rfl, rfl, rfl⟩
      · rw [if_neg hmg]
        refine ⟨?_, ?_, ?_, rfl, rfl, rfl⟩
        · exact hsetwf _ wf_fillFlag
        · rw [hsetbits2 _, wordBits_fillFlag, hrhs, hlitset]
        · rw [hsetlits1 _ wordLits_fillFlag, htlw]
    · rw [if_neg hzero]
      have hv : b.words.getD k 0 &&& compl64 (1 <<< off) < 2 ^ 63 :=
        lt_of_le_of_lt Nat.and_le_left hw63
      refine ⟨?_, ?_, ?_, rfl, rfl, rfl⟩
      · exact hsetwf _ (wf_lit_and _ _ hw63 hoff hzero)
      · rw [hsetbits _ hv, hrhs, litBits_and _ _ hoff, hxf]
      · rw [htlw]
        exact hsetlits1 _ (wordLits_litword _ hv)

/-- Specification of `update`: an in-place write at `id < size` performs a
point update of the logical bit sequence and preserves well-formedness. -/
theorem update_spec (b : Bitvec) (id : Nat) (x : Bool) (h : WF b) (hid : id < b.size) :
    WF (Bitvec.update b id x) ∧
    toBits (Bitvec.update b id x) = (toBits b).set id x ∧
    (Bitvec.update b id x).size = b.size := by
  have hco : 63 * (id / 63) + id % 63 = id := Nat.div_add_mod id 63
  have hoff : id % 63 < 63 := Nat.mod_lt _ (by omega)
  have hsz := h.size_eq
  have hol := h.offset_lt
  have hal := h.active_lt
  have hbitslen : (bitsOfWords b.words).length = totalLits b.words * 63 := length_bitsOfWords _
  unfold Bitvec.update
  dsimp only
  by_cases hin : id / 63 < totalLits b.words
  · obtain ⟨k, hk, heq, hlo, hhi⟩ := findWordLoop_stop0 b.words (id / 63) (by omega)
    rw [findWord_stop b id k hk heq]
    dsimp only
    rw [if_neg (by omega : ¬ k = b.words.length)]
    have hwmem : wfWord (b.words.getD k 0) := by
      rw [List.getD_eq_getElem b.words 0 hk]
      exact h.words_wf _ (List.getElem_mem _)
    have hidlt : id < (bitsOfWords b.words).length := by
      rw [hbitslen]
      have h2 : (id / 63 + 1) * 63 ≤ totalLits b.words * 63 := Nat.mul_le_mul_right 63 hin
      omega
    by_cases h63 : (b.words.getD k 0).testBit 63 = true
    · rw [if_pos ((and_fillFlag_ne _).mpr h63)]
      obtain ⟨hdec, hclt⟩ := fill_decomp _ hwmem.1 h63
      have hwlits : wordLits (b.words.getD k 0) = (b.words.getD k 0 &&& countMask) + 1 := by
        conv_lhs => rw [hdec]
        rw [wordLits_fill _ _ hclt]
      have htc : id / 63 - totalLits (b.words.take k) ≤ b.words.getD k 0 &&& countMask := by
        rw [hwlits] at hhi
        omega
      have hposid : totalLits (b.words.take k) * 63 +
          ((id / 63 - totalLits (b.words.take k)) * 63 + id % 63) = id := by
        have e1 : (id / 63 - totalLits (b.words.take k)) * 63 =
            id / 63 * 63 - totalLits (b.words.take k) * 63 :=
          Nat.sub_mul _ _ 63
        have e2 : totalLits (b.words.take k) * 63 ≤ id / 63 * 63 :=
          Nat.mul_le_mul_right 63 hlo
        omega
      by_cases hC : (x ∧ b.words.getD k 0 &&& onesFlag = 0) ∨
          ¬(x ∨ b.words.getD k 0 &&& onesFlag = 0)
      · rw [if_pos hC]
        have hxpol : x = !(b.words.getD k 0).testBit 62 := by
          rcases hC with ⟨hx1, hz⟩ | hC2
          · have h62 : (b.words.getD k 0).testBit 62 = false := by
              by_cases hbb : (b.words.getD k 0).testBit 62 = true
              · exact absurd hz ((and_onesFlag_ne _).mpr hbb)
              · exact Bool.not_eq_true _ |>.mp hbb
            rw [h62, hx1]
            rfl
          · have hx2 : x = false := by
              cases x
              · rfl
              · exact absurd (Or.inl rfl) hC2
            have hz2 : b.words.getD k 0 &&& onesFlag ≠ 0 := fun hzz => hC2 (Or.inr hzz)
            rw [(and_onesFlag_ne _).mp hz2, hx2]
            rfl
        obtain ⟨u1, u2, u3, u4, u5, u6⟩ :=
          updateFill_spec b k (id / 63 - totalLits (b.words.take k)) (id % 63) x
            ((b.words.getD k 0).testBit 62) (b.words.getD k 0 &&& countMask)
            h.words_wf hk hdec hclt htc hoff hxpol
        refine ⟨⟨by rw [u5]; omega, by rw [u4, u5]; exact hal, u1, ?_⟩, ?_, by rw [u6]⟩
        · rw [u6, u5, u3]
          exact hsz
        · rw [toBits, toBits, u2, u4, u5, hposid]
          rw [List.set_append, if_pos hidlt]
      · rw [if_neg hC]
        have hxeq : x = (b.words.getD k 0).testBit 62 := by
          by_cases hx : x = true
          · have hz : b.words.getD k 0 &&& onesFlag ≠ 0 := by
              intro hz0
              exact hC (Or.inl ⟨hx, hz0⟩)
            rw [(and_onesFlag_ne _).mp hz, hx]
          · have hx2 : x = false := by
              cases x
              · rfl
              · exact absurd rfl hx
            have hz : b.words.getD k 0 &&& onesFlag = 0 := by
              by_contra hz2
              have h62 := (and_onesFlag_ne _).mp (fun hh => hz2 hh)
              exact hC (Or.inr (fun hor => by
                rcases hor with hor | hor
                · rw [hx2] at hor
                  exact Bool.false_ne_true hor
                · exact hz2 hor))
            have h62 : (b.words.getD k 0).testBit 62 = false := by
              by_cases hbb : (b.words.getD k 0).testBit 62 = true
              · exact absurd hz ((and_onesFlag_ne _).mpr hbb)
              · exact Bool.not_eq_true _ |>.mp hbb
            rw [h62, hx2]
        refine ⟨h, ?_, rfl⟩
        have hgd := getD_bitsOfWords b.words k (id / 63) (id % 63) h.words_wf hk hoff hlo hhi
        rw [show id / 63 * 63 + id % 63 = id by omega] at hgd
        rw [if_pos h63] at hgd
        refine (set_of_getD _ _ _ ?_ ?_).symm
        · rw [length_toBits]
          omega
        · rw [toBits, List.getD_append _ _ _ _ hidlt, hgd, hxeq]
    · simp only [Bool.not_eq_true] at h63
      rw [if_neg (fun hcc => absurd ((and_fillFlag_ne _).mp hcc) (by rw [h63]; decide))]
      have hwl1 : wordLits (b.words.getD k 0) = 1 := wordLits_lit _ h63
      have hjeq : id / 63 = totalLits (b.words.take k) := by
        rw [hwl1] at hhi
        omega
      have hposid : totalLits (b.words.take k) * 63 + id % 63 = id := by
        omega
      obtain ⟨u1, u2, u3, u4, u5, u6⟩ :=
        updateLiteral_spec b k (id % 63) x h.words_wf hk h63 hoff
      refine ⟨⟨by rw [u5]; omega, by rw [u4, u5]; exact hal, u1, ?_⟩, ?_, by rw [u6]⟩
      · rw [u6, u5, u3]
        exact hsz
      · rw [toBits, toBits, u2, u4, u5, hposid]
        rw [List.set_append, if_pos hidlt]
  · have hTeq : id / 63 = totalLits b.words := by omega
    have hoffo : id % 63 < b.offset := by omega
    rw [findWord_active b id (by omega) (by omega)]
    dsimp only
    rw [if_pos rfl]
    refine ⟨⟨by dsimp only; omega, ?_, h.words_wf, by dsimp only; omega⟩, ?_, rfl⟩
    · dsimp only
      by_cases hx : x = true
      · rw [if_pos hx]
        apply Nat.or_lt_two_pow hal
        rw [Nat.one_shiftLeft]
        exact Nat.pow_lt_pow_right (by omega) (by omega)
      · rw [if_neg hx]
        exact lt_of_le_of_lt Nat.and_le_left hal
    · rw [toBits, toBits]
      dsimp only
      have hnotlt : ¬ id < (bitsOfWords b.words).length := by
        rw [hbitslen]
        omega
      rw [List.set_append, if_neg hnotlt, hbitslen,
        show id - totalLits b.words * 63 = id % 63 by omega]
      congr 1
      by_cases hx : x = true
      · rw [if_pos hx, activePart_or _ _ _ hoffo, hx]
      · rw [if_neg hx, activePart_and _ _ _ hoffo (by omega)]
        cases x
        · rfl
        · exact absurd rfl hx

/-! ### The top-level `Set` -/

theorem set_pad_append (l : List Bool) (m n : Nat) (x : Bool) (hn : n = l.length + m) :
    (l ++ List.replicate (m + 1) false).set n x = (l ++ List.replicate m false) ++ [x] := by
  subst hn
  rw [List.replicate_succ', ← List.append_assoc, List.set_append]
  rw [if_neg (by simp)]
  simp

theorem Set_spec (b : Bitvec) (id : Nat) (x : Bool) (h : WF b) :
    WF (Bitvec.Set b id x) ∧
    toBits (Bitvec.Set b id x) =
      (toBits b ++ List.replicate (id + 1 - b.size) false).set id x ∧
    (Bitvec.Set b id x).size = max b.size (id + 1) := by
  have hlen : (toBits b).length = b.size := by
    rw [length_toBits, h.size_eq]
    omega
  unfold Bitvec.Set
  dsimp only
  by_cases hgt : id > b.size
  · rw [if_pos hgt, bitLength_sub_one]
    obtain ⟨hwf, htb, _⟩ := extend_spec b id h hgt
    rw [if_pos (Eq.refl id)]
    obtain ⟨ha1, ha2, ha3⟩ := append_spec _ x hwf
    refine ⟨ha1, ?_, ?_⟩
    · rw [ha2, htb, show id + 1 - b.size = (id - b.size) + 1 by omega,
        set_pad_append (toBits b) (id - b.size) id x (by rw [hlen]; omega)]
    · rw [ha3]
      dsimp only
      omega
  · rw [if_neg hgt]
    by_cases heq : id = b.size
    · rw [if_pos heq]
      obtain ⟨ha1, ha2, ha3⟩ := append_spec b x h
      refine ⟨ha1, ?_, by rw [ha3]; omega⟩
      rw [ha2, show id + 1 - b.size = 0 + 1 by omega,
        set_pad_append (toBits b) 0 id x (by rw [hlen]; omega)]
      simp
    · rw [if_neg heq]
      have hlt : id < b.size := by omega
      obtain ⟨hu1, hu2, hu3⟩ := update_spec b id x h hlt
      refine ⟨hu1, ?_, by rw [hu3]; omega⟩
      rw [hu2, show id + 1 - b.size = 0 by omega]
      simp

theorem getD_set_bool (l : List Bool) (n k : Nat) (x : Bool) :
    (l.set n x).getD k false = if k = n ∧ n < l.length then x else l.getD k false := by
  induction l generalizing n k with
  | nil => simp
  | cons a l ih =>
    cases n with
    | zero =>
      cases k with
      | zero => simp
      | succ k => simp
    | succ n =>
      cases k with
      | zero => simp
      | succ k =>
        rw [List.set_cons_succ, List.getD_cons_succ, List.getD_cons_succ, ih]
        simp [Nat.succ_lt_succ_iff]

theorem getD_pad (l : List Bool) (m k : Nat) :
    (l ++ List.replicate m false).getD k false = l.getD k false := by
  by_cases hk : k < l.length
  · rw [List.getD_append _ _ _ _ hk]
  · rw [List.getD_append_right _ _ _ _ (by omega), getD_replicate_bool,
      List.getD_eq_default _ _ (by omega)]
    simp

/-- Pointwise effect of `Set` on the logical bit sequence. -/
theorem Set_getD (b : Bitvec) (id k : Nat) (x : Bool) (h : WF b) :
    (toBits (Bitvec.Set b id x)).getD k false =
      if k = id then x else (toBits b).getD k false := by
  obtain ⟨_, h2, _⟩ := Set_spec b id x h
  have hlen : (toBits b).length = b.size := by
    rw [length_toBits, h.size_eq]
    omega
  rw [h2, getD_set_bool, getD_pad]
  by_cases hk : k = id
  · rw [if_pos ⟨hk, by simp [hlen]; omega⟩, if_pos hk]
  · rw [if_neg (fun hc => hk hc.1), if_neg hk]

/-! ### Building a `Bitvec` by a sequence of `Set` calls -/

/-- Fold a list of `(index, value)` writes over the empty bitvector. -/
def applyOps (ops : List (Nat × Bool)) : Bitvec :=
  ops.foldl (fun b p => Bitvec.Set b p.1 p.2) Bitvec.New

/-- The reference model of a write sequence: the last value written at `i`,
or `false` if `i` was never written. -/
def lastWrite (ops : List (Nat × Bool)) (i : Nat) : Bool :=
  ops.foldl (fun acc p => if p.1 = i then p.2 else acc) false

theorem WF_New : WF Bitvec.New :=
  ⟨by decide, by decide, by intro w hw; simp [Bitvec.New] at hw, rfl⟩

theorem applyOps_aux (ops : List (Nat × Bool)) (b : Bitvec) (h : WF b) :
    WF (ops.foldl (fun b p => Bitvec.Set b p.1 p.2) b) ∧
    b.size ≤ (ops.foldl (fun b p => Bitvec.Set b p.1 p.2) b).size ∧
    (∀ p ∈ ops, p.1 < (ops.foldl (fun b p => Bitvec.Set b p.1 p.2) b).size) ∧
    ∀ k, (toBits (ops.foldl (fun b p => Bitvec.Set b p.1 p.2) b)).getD k false =
      ops.foldl (fun acc p => if p.1 = k then p.2 else acc) ((toBits b).getD k false) := by
  induction ops generalizing b with
  | nil => exact ⟨h, le_refl _, by simp, fun k => rfl⟩
  | cons q ops ih =>
    obtain ⟨hs1, hs2, hs3⟩ := Set_spec b q.1 q.2 h
    obtain ⟨h1, h2, h3, h4⟩ := ih (Bitvec.Set b q.1 q.2) hs1
    rw [List.foldl_cons]
    refine ⟨h1, ?_, ?_, ?_⟩
    · calc b.size ≤ (Bitvec.Set b q.1 q.2).size := by rw [hs3]; omega
        _ ≤ _ := h2
    · intro p hp
      rcases List.mem_cons.mp hp with hpq | hp'
      · subst hpq
        calc p.1 < (Bitvec.Set b p.1 p.2).size := by rw [hs3]; omega
          _ ≤ _ := h2
      · exact h3 p hp'
    · intro k
      rw [h4 k, Set_getD b q.1 k q.2 h, List.foldl_cons]
      congr 1
      by_cases hqk : q.1 = k
      · rw [if_pos hqk, if_pos hqk.symm]
      · rw [if_neg hqk, if_neg (fun hc => hqk hc.symm)]

/-- Every bitvector reachable by `Set` calls from `New()` is well formed. -/
theorem WF_applyOps (ops : List (Nat × Bool)) : WF (applyOps ops) :=
  (applyOps_aux ops Bitvec.New WF_New).1

/-- Written indices lie below the final size. -/
theorem applyOps_size_ge (ops : List (Nat × Bool)) :
    ∀ p ∈ ops, p.1 < (applyOps ops).size :=
  (applyOps_aux ops Bitvec.New WF_New).2.2.1

/-- The logical bits after a write sequence realise last-write-wins. -/
theorem applyOps_getD (ops : List (Nat × Bool)) (k : Nat) :
    (toBits (applyOps ops)).getD k false = lastWrite ops k :=
  (applyOps_aux ops Bitvec.New WF_New).2.2.2 k

/-! ### Iterators (`iterator.go`)

An iterator is modelled as a state type `σ` with an explicit step function
`σ → (Nat × Nat) × σ` returning the `(word, validBitCount)` chunk and the
successor state.  Go methods with pointer receivers thread the state;
the one method with a value receiver (`zeroIterator.Next`) is modelled by
`zeroCall`, which discards the successor state exactly as the Go call does. -/

/-- `emptyIterator.Next`: always the terminal chunk. -/
def emptyNext (s : Unit) : (Nat × Nat) × Unit := ((0, 0), s)

/-- The body of `zeroIterator.Next` as written (its effect on the receiver
copy). -/
def zeroIterNext (s : Nat) : (Nat × Nat) × Nat :=
  if bitLength - 1 ≤ s then ((0, bitLength - 1), s - (bitLength - 1))
  else ((0, s), 0)

/-- An actual Go call `itr.Next()` on a `zeroIterator`: the receiver is passed
by value, so the caller's state is unchanged. -/
def zeroCall (s : Nat) : (Nat × Nat) × Nat := ((zeroIterNext s).1, s)

/-- The state of `bitvecIterator` (the `b` field is passed separately). -/
structure BvIter where
  index : Nat
  count : Nat
  fill : Nat
deriving Repr, DecidableEq

/-- `bitvecIterator.Next`. -/
def bvNext (b : Bitvec) (s : BvIter) : (Nat × Nat) × BvIter :=
  if 0 < s.count then ((s.fill, bitLength - 1), { s with count := s.count - 1 })
  else if s.index < b.words.length then
    let w := b.words.getD s.index 0
    if w &&& fillFlag = 0 then ((w, bitLength - 1), { s with index := s.index + 1 })
    else
      let f := if w &&& onesFlag = 0 then 0 else compl64 fillFlag
      ((f, bitLength - 1),
        { s with index := s.index + 1, count := w &&& countMask, fill := f })
  else if s.index = b.words.length then
    ((b.active, b.offset), { s with index := s.index + 1 })
  else ((0, 0), s)

/-- `Iterate()`: the initial iterator state. -/
def iterate0 : BvIter := { index := 0, count := 0, fill := 0 }

/-- `notIterator.Next`. -/
def notNext {σ : Type} (nx : σ → (Nat × Nat) × σ) (s : σ) : (Nat × Nat) × σ :=
  let r := nx s
  ((compl64 fillFlag ^^^ r.1.1, r.1.2), r.2)

/-- `andIterator.Next`. -/
def andNext {σ τ : Type} (nx : σ → (Nat × Nat) × σ) (ny : τ → (Nat × Nat) × τ)
    (s : σ × τ) : (Nat × Nat) × (σ × τ) :=
  let rx := nx s.1
  let ry := ny s.2
  ((rx.1.1 &&& ry.1.1, min rx.1.2 ry.1.2), (rx.2, ry.2))

/-- `orIterator.Next`. -/
def orNext {σ τ : Type} (nx : σ → (Nat × Nat) × σ) (ny : τ → (Nat × Nat) × τ)
    (s : σ × τ) : (Nat × Nat) × (σ × τ) :=
  let rx := nx s.1
  let ry := ny s.2
  ((rx.1.1 ||| ry.1.1, max rx.1.2 ry.1.2), (rx.2, ry.2))

/-- `xorIterator.Next`. -/
def xorNext {σ τ : Type} (nx : σ → (Nat × Nat) × σ) (ny : τ → (Nat × Nat) × τ)
    (s : σ × τ) : (Nat × Nat) × (σ × τ) :=
  let rx := nx s.1
  let ry := ny s.2
  ((rx.1.1 ^^^ ry.1.1, max rx.1.2 ry.1.2), (rx.2, ry.2))

/-- Population count (`bits.OnesCount`). -/
def popc (w : Nat) : Nat := (Nat.bits w).count true

/-- `Count`, with an explicit fuel bound on the number of loop iterations. -/
def countAux {σ : Type} (next : σ → (Nat × Nat) × σ) : Nat → σ → Nat
  | 0, _ => 0
  | fuel + 1, s =>
    let r := next s
    if r.1.2 = 0 then 0
    else
      popc (if r.1.2 < bitLength - 1
            then r.1.1 &&& ((2 ^ 64 - 1) >>> (bitLength - r.1.2))
            else r.1.1) +
        countAux next fuel r.2

/-- The loop body of `Indices`, with an explicit fuel bound: the sequence of
positions sent on the channel. -/
def indicesAux {σ : Type} (next : σ → (Nat × Nat) × σ) : Nat → σ → Nat → List Nat
  | 0, _, _ => []
  | fuel + 1, s, id =>
    let r := next s
    if r.1.2 = 0 then []
    else
      ((List.range r.1.2).filter (fun i => r.1.1 &&& (1 <<< i) != 0)).map (fun i => id + i) ++
        indicesAux next fuel r.2 (id + (bitLength - 1))

/-- The state after `k` calls to `next`. -/
def stepState {σ : Type} (next : σ → (Nat × Nat) × σ) : Nat → σ → σ
  | 0, s => s
  | k + 1, s => stepState next k (next s).2

/-- The chunk returned by the `(k+1)`-st call to `next`. -/
def chunkAt {σ : Type} (next : σ → (Nat × Nat) × σ) (s : σ) (k : Nat) : Nat × Nat :=
  (next (stepState next k s)).1

/-- End-of-stream is permanent: once some call returns a zero count, every
later call does too. -/
def Permanent {σ : Type} (next : σ → (Nat × Nat) × σ) : Prop :=
  ∀ s k j, (chunkAt next s k).2 = 0 → k ≤ j → (chunkAt next s j).2 = 0

/-! ### Permanence of end-of-stream -/

theorem stepState_succ_last {σ : Type} (next : σ → (Nat × Nat) × σ) (k : Nat) (s : σ) :
    stepState next (k + 1) s = (next (stepState next k s)).2 := by
  induction k generalizing s with
  | zero => rfl
  | succ k ih =>
    rw [stepState, ih, stepState]

theorem permanent_of_step {σ : Type} (next : σ → (Nat × Nat) × σ)
    (hstep : ∀ t, (next t).1.2 = 0 → (next (next t).2).1.2 = 0) : Permanent next := by
  intro s k j h0 hkj
  obtain ⟨d, rfl⟩ : ∃ d, j = k + d := ⟨j - k, by omega⟩
  clear hkj
  induction d with
  | zero => exact h0
  | succ d ih =>
    rw [show k + (d + 1) = (k + d) + 1 by omega, chunkAt, stepState_succ_last]
    exact hstep _ ih

theorem bvNext_step_zero (b : Bitvec) (s : BvIter) (h : (bvNext b s).1.2 = 0) :
    (bvNext b (bvNext b s).2).1.2 = 0 := by
  have hbl : ¬ (bitLength - 1 = 0) := by decide
  by_cases hc : 0 < s.count
  · unfold bvNext at h
    rw [if_pos hc] at h
    exact absurd h hbl
  · by_cases hi : s.index < b.words.length
    · unfold bvNext at h
      rw [if_neg hc, if_pos hi] at h
      by_cases hf : b.words.getD s.index 0 &&& fillFlag = 0
      · rw [if_pos hf] at h
        exact absurd h hbl
      · rw [if_neg hf] at h
        exact absurd h hbl
    · by_cases he : s.index = b.words.length
      · have hs2 : (bvNext b s).2 = { s with index := s.index + 1 } := by
          unfold bvNext
          rw [if_neg hc, if_neg hi, if_pos he]
        rw [hs2]
        unfold bvNext
        dsimp only
        rw [if_neg hc, if_neg (by omega : ¬ s.index + 1 < b.words.length),
          if_neg (by omega : ¬ s.index + 1 = b.words.length)]
      · have hs2 : (bvNext b s).2 = s := by
          unfold bvNext
          rw [if_neg hc, if_neg hi, if_neg he]
        rw [hs2]
        unfold bvNext
        rw [if_neg hc, if_neg hi, if_neg he]

theorem bvNext_permanent (b : Bitvec) : Permanent (bvNext b) :=
  permanent_of_step _ (bvNext_step_zero b)

theorem notNext_permanent {σ : Type} (f : σ → (Nat × Nat) × σ) (hf : Permanent f) :
    Permanent (notNext f) := by
  refine permanent_of_step _ ?_
  intro t ht
  have h1 : (f t).1.2 = 0 := ht
  exact hf t 0 1 h1 (by omega)

theorem andNext_permanent {σ τ : Type} (f : σ → (Nat × Nat) × σ) (g : τ → (Nat × Nat) × τ)
    (hf : Permanent f) (hg : Permanent g) : Permanent (andNext f g) := by
  refine permanent_of_step _ ?_
  intro t ht
  have h0 : min (f t.1).1.2 (g t.2).1.2 = 0 := ht
  show min (f (f t.1).2).1.2 (g (g t.2).2).1.2 = 0
  rcases Nat.min_eq_zero_iff.mp h0 with h1 | h1
  · have hA : (f (f t.1).2).1.2 = 0 := hf t.1 0 1 h1 (by omega)
    omega
  · have hA : (g (g t.2).2).1.2 = 0 := hg t.2 0 1 h1 (by omega)
    omega

theorem orNext_permanent {σ τ : Type} (f : σ → (Nat × Nat) × σ) (g : τ → (Nat × Nat) × τ)
    (hf : Permanent f) (hg : Permanent g) : Permanent (orNext f g) := by
  refine permanent_of_step _ ?_
  intro t ht
  have h0 : max (f t.1).1.2 (g t.2).1.2 = 0 := ht
  show max (f (f t.1).2).1.2 (g (g t.2).2).1.2 = 0
  have h1 : (f t.1).1.2 = 0 := by omega
  have h2 : (g t.2).1.2 = 0 := by omega
  have hA : (f (f t.1).2).1.2 = 0 := hf t.1 0 1 h1 (by omega)
  have hB : (g (g t.2).2).1.2 = 0 := hg t.2 0 1 h2 (by omega)
  omega

theorem xorNext_permanent {σ τ : Type} (f : σ → (Nat × Nat) × σ) (g : τ → (Nat × Nat) × τ)
    (hf : Permanent f) (hg : Permanent g) : Permanent (xorNext f g) := by
  refine permanent_of_step _ ?_
  intro t ht
  have h0 : max (f t.1).1.2 (g t.2).1.2 = 0 := ht
  show max (f (f t.1).2).1.2 (g (g t.2).2).1.2 = 0
  have h1 : (f t.1).1.2 = 0 := by omega
  have h2 : (g t.2).1.2 = 0 := by omega
  have hA : (f (f t.1).2).1.2 = 0 := hf t.1 0 1 h1 (by omega)
  have hB : (g (g t.2).2).1.2 = 0 := hg t.2 0 1 h2 (by omega)
  omega

/-! ### Double negation of an iterator -/

theorem notNext_notNext {σ : Type} (f : σ → (Nat × Nat) × σ) (s : σ) :
    notNext (notNext f) s = f s := by
  show ((compl64 fillFlag ^^^ (compl64 fillFlag ^^^ (f s).1.1), (f s).1.2), (f s).2) = f s
  rw [← Nat.xor_assoc, Nat.xor_self, Nat.zero_xor]

/-! ### The value-receiver `zeroIterator` -/

theorem stepState_zeroCall (n k : Nat) : stepState zeroCall k n = n := by
  induction k with
  | zero => rfl
  | succ k ih =>
    rw [stepState]
    exact ih

/-! ### Draining `Indices`: from the stateful iterator to the logical bits -/

/-- The positions (shifted by `id`) of the true bits of a bit list. -/
def posOf (l : List Bool) (id : Nat) : List Nat :=
  ((List.range l.length).filter (fun i => l.getD i false)).map (fun i => id + i)

/-- The positions of the true bits of a bit list. -/
def trueIndices (l : List Bool) : List Nat :=
  (List.range l.length).filter (fun i => l.getD i false)

/-- The positions one chunk `(w, n)` contributes at base index `id`. -/
def chunkPoss (w n id : Nat) : List Nat :=
  ((List.range n).filter (fun i => w &&& (1 <<< i) != 0)).map (fun i => id + i)

/-- The drain loop of `Indices` on a pure list of chunks. -/
def chunksIndices : List (Nat × Nat) → Nat → List Nat
  | [], _ => []
  | c :: rest, id =>
    if c.2 = 0 then [] else chunkPoss c.1 c.2 id ++ chunksIndices rest (id + 63)

/-- The chunks the bitvector iterator will produce for one committed word. -/
def wordChunks (w : Nat) : List (Nat × Nat) :=
  if w.testBit 63 then
    List.replicate ((w &&& countMask) + 1) ((if w.testBit 62 then compl64 fillFlag else 0), 63)
  else [(w, 63)]

/-- The chunks still to come from a mid-stream iterator state. -/
def stateChunks (b : Bitvec) (s : BvIter) : List (Nat × Nat) :=
  List.replicate s.count (s.fill, 63) ++
  (b.words.drop s.index).flatMap wordChunks ++
  (if s.index ≤ b.words.length then [(b.active, b.offset)] else [])

theorem posOf_nil (id : Nat) : posOf [] id = [] := rfl

theorem posOf_zero (l : List Bool) : posOf l 0 = trueIndices l := by
  unfold posOf trueIndices
  rw [show (fun i => 0 + i) = fun i : Nat => i by funext i; omega]
  exact List.map_id _

theorem posOf_append (l1 l2 : List Bool) (id : Nat) :
    posOf (l1 ++ l2) id = posOf l1 id ++ posOf l2 (id + l1.length) := by
  unfold posOf
  rw [List.length_append, List.range_add, List.filter_append, List.map_append]
  congr 1
  · congr 1
    apply List.filter_congr
    intro i hi
    rw [List.mem_range] at hi
    show (l1 ++ l2).getD i false = l1.getD i false
    rw [List.getD_append _ _ _ _ hi]
  · rw [List.filter_map, List.map_map]
    have hfil : ∀ i ∈ List.range l2.length,
        ((fun i => (l1 ++ l2).getD i false) ∘ (fun i => l1.length + i)) i =
          (fun i => l2.getD i false) i := by
      intro i _
      show (l1 ++ l2).getD (l1.length + i) false = l2.getD i false
      rw [List.getD_append_right _ _ _ _ (by omega),
        show l1.length + i - l1.length = i by omega]
    rw [List.filter_congr hfil,
      show ((fun i => id + i) ∘ (fun i => l1.length + i)) = fun i => id + l1.length + i by
        funext i; show id + (l1.length + i) = id + l1.length + i; omega]

theorem chunkPoss_litBits (w id : Nat) : chunkPoss w 63 id = posOf (litBits w) id := by
  unfold chunkPoss posOf
  rw [length_litBits]
  congr 1
  apply List.filter_congr
  intro i hi
  rw [List.mem_range] at hi
  show (w &&& (1 <<< i) != 0) = (litBits w).getD i false
  rw [bne_and_single, getD_litBits _ _ hi]

theorem chunkPoss_active (a off id : Nat) :
    chunkPoss a off id = posOf ((List.range off).map a.testBit) id := by
  unfold chunkPoss posOf
  rw [List.length_map, List.length_range]
  congr 1
  apply List.filter_congr
  intro i hi
  rw [List.mem_range] at hi
  show (a &&& (1 <<< i) != 0) = ((List.range off).map a.testBit).getD i false
  rw [bne_and_single, getD_range_map, if_pos hi]

theorem chunkPoss_fill (pol : Bool) (id : Nat) :
    chunkPoss (if pol then compl64 fillFlag else 0) 63 id =
      posOf (List.replicate 63 pol) id := by
  unfold chunkPoss posOf
  rw [List.length_replicate]
  congr 1
  apply List.filter_congr
  intro i hi
  rw [List.mem_range] at hi
  show ((if pol then compl64 fillFlag else 0) &&& (1 <<< i) != 0) =
    (List.replicate 63 pol).getD i false
  rw [bne_and_single, getD_replicate_bool, if_pos hi]
  cases pol
  · simp [Nat.zero_testBit]
  · rw [if_pos rfl, show compl64 fillFlag = onesLiteral from rfl, onesLiteral_testBit]
    simp [hi]

theorem indicesAux_succ {σ : Type} (next : σ → (Nat × Nat) × σ) (fuel : Nat) (s : σ) (id : Nat) :
    indicesAux next (fuel + 1) s id =
      if (next s).1.2 = 0 then []
      else chunkPoss (next s).1.1 (next s).1.2 id ++ indicesAux next fuel (next s).2 (id + 63) :=
  rfl

theorem chunksIndices_cons (c : Nat × Nat) (rest : List (Nat × Nat)) (id : Nat) :
    chunksIndices (c :: rest) id =
      if c.2 = 0 then [] else chunkPoss c.1 c.2 id ++ chunksIndices rest (id + 63) :=
  rfl

theorem chunksIndices_fillrun (m : Nat) (pol : Bool) (rest : List (Nat × Nat)) (id : Nat) :
    chunksIndices (List.replicate m ((if pol then compl64 fillFlag else 0), 63) ++ rest) id =
      posOf (List.replicate (m * 63) pol) id ++ chunksIndices rest (id + m * 63) := by
  induction m generalizing id with
  | zero => simp [posOf_nil]
  | succ m ih =>
    rw [List.replicate_succ, List.cons_append, chunksIndices_cons]
    dsimp only
    rw [if_neg (by decide : ¬ (63 = 0)), chunkPoss_fill, ih,
      show (m + 1) * 63 = 63 + m * 63 by ring, List.replicate_add, posOf_append,
      List.length_replicate, List.append_assoc,
      show id + 63 + m * 63 = id + (63 + m * 63) by omega]

theorem chunksIndices_words (ws : List Nat) (a off id : Nat) :
    chunksIndices (ws.flatMap wordChunks ++ [(a, off)]) id =
      posOf (bitsOfWords ws ++ (List.range off).map a.testBit) id := by
  induction ws generalizing id with
  | nil =>
    rw [List.flatMap_nil, List.nil_append, chunksIndices_cons, bitsOfWords, List.nil_append]
    dsimp only
    by_cases hoff : off = 0
    · rw [if_pos hoff, hoff]
      exact (posOf_nil id).symm
    · rw [if_neg hoff, chunkPoss_active,
        show chunksIndices [] (id + 63) = [] from rfl, List.append_nil]
  | cons w ws ih =>
    rw [List.flatMap_cons, bitsOfWords, List.append_assoc, List.append_assoc,
      posOf_append, wordChunks, wordBits]
    by_cases h63 : w.testBit 63 = true
    · rw [if_pos h63, if_pos h63, chunksIndices_fillrun, ih, List.length_replicate]
    · rw [if_neg h63, if_neg h63, List.cons_append, chunksIndices_cons]
      dsimp only
      rw [if_neg (by decide : ¬ (63 = 0)), chunkPoss_litBits, List.nil_append, ih,
        length_litBits]

theorem indicesAux_eq_chunks (b : Bitvec) (fuel : Nat) (s : BvIter) (id : Nat)
    (hfuel : (stateChunks b s).length + 1 ≤ fuel) :
    indicesAux (bvNext b) fuel s id = chunksIndices (stateChunks b s) id := by
  induction fuel generalizing s id with
  | zero => omega
  | succ fuel ih =>
    have hbl : ¬ (bitLength - 1 = 0) := by decide
    by_cases hc : 0 < s.count
    · have hnext : bvNext b s = ((s.fill, bitLength - 1), { s with count := s.count - 1 }) := by
        unfold bvNext
        rw [if_pos hc]
      have hsc : stateChunks b s =
          (s.fill, 63) :: stateChunks b { s with count := s.count - 1 } := by
        unfold stateChunks
        dsimp only
        conv_lhs => rw [show s.count = s.count - 1 + 1 by omega]
        rw [List.replicate_succ, List.cons_append, List.cons_append]
      rw [indicesAux_succ, hnext, hsc, chunksIndices_cons]
      dsimp only
      rw [if_neg hbl, if_neg (by decide : ¬ (63 = 0))]
      congr 1
      exact ih _ _ (by rw [hsc, List.length_cons] at hfuel; omega)
    · by_cases hi : s.index < b.words.length
      · have hdrop : b.words.drop s.index =
            b.words.getD s.index 0 :: b.words.drop (s.index + 1) := by
          rw [List.getD_eq_getElem _ _ hi, List.getElem_cons_drop]
        by_cases hf : b.words.getD s.index 0 &&& fillFlag = 0
        · -- literal word
          have hw63 : ¬ ((b.words.getD s.index 0).testBit 63 = true) := by
            intro hb
            exact (and_fillFlag_ne _).mpr hb hf
          have hnext : bvNext b s =
              ((b.words.getD s.index 0, bitLength - 1), { s with index := s.index + 1 }) := by
            unfold bvNext
            rw [if_neg hc, if_pos hi]
            dsimp only
            rw [if_pos hf]
          have hsc : stateChunks b s =
              (b.words.getD s.index 0, 63) :: stateChunks b { s with index := s.index + 1 } := by
            unfold stateChunks
            dsimp only
            rw [show s.count = 0 by omega, List.replicate_zero, List.nil_append,
              List.nil_append, hdrop, List.flatMap_cons, wordChunks, if_neg hw63,
              if_pos (by omega : s.index ≤ b.words.length),
              if_pos (by omega : s.index + 1 ≤ b.words.length),
              List.cons_append, List.cons_append, List.nil_append]
          rw [indicesAux_succ, hnext, hsc, chunksIndices_cons]
          dsimp only
          rw [if_neg hbl, if_neg (by decide : ¬ (63 = 0))]
          congr 1
          exact ih _ _ (by rw [hsc, List.length_cons] at hfuel; omega)
        · -- fill word
          have hw63 : (b.words.getD s.index 0).testBit 63 = true := by
            by_contra hb
            exact hf (by
              rcases Nat.eq_zero_or_pos (b.words.getD s.index 0 &&& fillFlag) with h0 | h0
              · exact h0
              · exact absurd ((and_fillFlag_ne _).mp (by omega)) hb)
          have hfeq : (if b.words.getD s.index 0 &&& onesFlag = 0 then 0 else compl64 fillFlag) =
              (if (b.words.getD s.index 0).testBit 62 = true then compl64 fillFlag else 0) := by
            by_cases h62 : (b.words.getD s.index 0).testBit 62 = true
            · rw [if_pos h62, if_neg (fun h0 => by
                have := (and_onesFlag_ne (b.words.getD s.index 0)).mpr h62
                exact this h0)]
            · rw [if_neg h62]
              rw [if_pos (by
                rcases Nat.eq_zero_or_pos (b.words.getD s.index 0 &&& onesFlag) with h0 | h0
                · exact h0
                · exact absurd ((and_onesFlag_ne _).mp (by omega)) h62)]
          have hnext : bvNext b s =
              (((if b.words.getD s.index 0 &&& onesFlag = 0 then 0 else compl64 fillFlag),
                bitLength - 1),
               { s with index := s.index + 1,
                        count := b.words.getD s.index 0 &&& countMask,
                        fill := (if b.words.getD s.index 0 &&& onesFlag = 0 then 0
                                 else compl64 fillFlag) }) := by
            unfold bvNext
            rw [if_neg hc, if_pos hi]
            dsimp only
            rw [if_neg hf]
          have hsc : stateChunks b s =
              ((if b.words.getD s.index 0 &&& onesFlag = 0 then 0 else compl64 fillFlag), 63) ::
                stateChunks b { s with index := s.index + 1,
                                       count := b.words.getD s.index 0 &&& countMask,
                                       fill := (if b.words.getD s.index 0 &&& onesFlag = 0 then 0
                                                else compl64 fillFlag) } := by
            unfold stateChunks
            dsimp only
            rw [show s.count = 0 by omega, List.replicate_zero, List.nil_append, hdrop,
              List.flatMap_cons, wordChunks, if_pos hw63, List.replicate_succ, hfeq,
              if_pos (by omega : s.index ≤ b.words.length),
              if_pos (by omega : s.index + 1 ≤ b.words.length),
              List.cons_append, List.cons_append, List.append_assoc]
          rw [indicesAux_succ, hnext, hsc, chunksIndices_cons]
          dsimp only
          rw [if_neg hbl, if_neg (by decide : ¬ (63 = 0))]
          congr 1
          exact ih _ _ (by rw [hsc, List.length_cons] at hfuel; omega)
      · by_cases he : s.index = b.words.length
        · -- active word
          have hnext : bvNext b s =
              ((b.active, b.offset), { s with index := s.index + 1 }) := by
            unfold bvNext
            rw [if_neg hc, if_neg hi, if_pos he]
          have hsc : stateChunks b s = [(b.active, b.offset)] := by
            unfold stateChunks
            rw [show s.count = 0 by omega, List.replicate_zero, List.nil_append, he,
              List.drop_length, List.flatMap_nil, List.nil_append,
              if_pos (le_refl _)]
          have hsc' : stateChunks b { s with index := s.index + 1 } = [] := by
            unfold stateChunks
            dsimp only
            rw [show s.count = 0 by omega, List.replicate_zero, List.nil_append,
              List.drop_eq_nil_of_le (by omega), List.flatMap_nil, List.nil_append,
              if_neg (by omega)]
          rw [indicesAux_succ, hnext, hsc, chunksIndices_cons]
          dsimp only
          by_cases hoff : b.offset = 0
          · rw [if_pos hoff, if_pos hoff]
          · rw [if_neg hoff, if_neg hoff]
            congr 1
            rw [ih _ _ (by
              rw [hsc']
              rw [hsc] at hfuel
              simp only [List.length_cons, List.length_nil] at hfuel ⊢
              omega), hsc']
        · -- end of stream
          have hnext : bvNext b s = ((0, 0), s) := by
            unfold bvNext
            rw [if_neg hc, if_neg hi, if_neg he]
          have hsc : stateChunks b s = [] := by
            unfold stateChunks
            rw [show s.count = 0 by omega, List.replicate_zero, List.nil_append,
              List.drop_eq_nil_of_le (by omega), List.flatMap_nil, List.nil_append,
              if_neg (by omega)]
          rw [indicesAux_succ, hnext, hsc]
          rw [if_pos rfl]
          rfl

theorem stateChunks_init (b : Bitvec) :
    stateChunks b iterate0 = b.words.flatMap wordChunks ++ [(b.active, b.offset)] := by
  unfold stateChunks iterate0
  dsimp only
  rw [List.replicate_zero, List.nil_append, List.drop_zero, if_pos (by omega)]

theorem length_flatMap_wordChunks (ws : List Nat) :
    (ws.flatMap wordChunks).length = totalLits ws := by
  induction ws with
  | nil => rfl
  | cons w ws ih =>
    rw [List.flatMap_cons, List.length_append, ih, totalLits]
    congr 1
    unfold wordChunks wordLits
    by_cases h : w.testBit 63 = true
    · rw [if_pos h, if_pos h, List.length_replicate]
    · rw [if_neg h, if_neg h]
      rfl

/-- Draining `Indices(b.Iterate())` with enough fuel yields exactly the
positions of the true logical bits, in ascending order. -/
theorem indices_drain (b : Bitvec) (fuel : Nat)
    (hfuel : totalLits b.words + 2 ≤ fuel) :
    indicesAux (bvNext b) fuel iterate0 0 = trueIndices (toBits b) := by
  rw [indicesAux_eq_chunks b fuel iterate0 0 (by
      rw [stateChunks_init, List.length_append, length_flatMap_wordChunks]
      simp only [List.length_cons, List.length_nil]
      omega),
    stateChunks_init, chunksIndices_words, posOf_zero, toBits]

/-- After writes of `true` at exactly the members of `L`, the logical bit at
`k` is `k ∈ L`. -/
theorem lastWrite_all_true_aux (L : List Nat) (k : Nat) (a : Bool) :
    (L.map (fun i => (i, true))).foldl (fun acc p => if p.1 = k then p.2 else acc) a =
      (a || decide (k ∈ L)) := by
  induction L generalizing a with
  | nil => simp
  | cons i L ih =>
    rw [List.map_cons, List.foldl_cons, ih]
    by_cases hik : i = k
    · subst hik
      simp
    · simp only [List.mem_cons]
      rw [if_neg hik]
      congr 1
      simp [Ne.symm hik]

theorem lastWrite_all_true (L : List Nat) (k : Nat) :
    lastWrite (L.map (fun i => (i, true))) k = decide (k ∈ L) := by
  rw [lastWrite, lastWrite_all_true_aux]
  simp

/-- A strictly ascending list bounded by `n` is recovered by filtering
`range n` for membership. -/
theorem filter_range_sorted (L : List Nat) (n : Nat) (hL : List.Chain' (· < ·) L)
    (hb : ∀ i ∈ L, i < n) :
    (List.range n).filter (fun i => decide (i ∈ L)) = L := by
  haveI : IsAntisymm Nat (· < ·) := ⟨fun a b h1 h2 => absurd h2 (Nat.lt_asymm h1)⟩
  have hpL : List.Pairwise (· < ·) L := List.chain'_iff_pairwise.mp hL
  have hpF : List.Pairwise (· < ·) ((List.range n).filter (fun i => decide (i ∈ L))) :=
    List.Pairwise.sublist (List.filter_sublist _) (List.pairwise_lt_range n)
  refine List.eq_of_perm_of_sorted ?_ hpF hpL
  refine (List.perm_ext_iff_of_nodup (hpF.nodup) (hpL.nodup)).mpr ?_
  intro a
  rw [List.mem_filter, List.mem_range]
  constructor
  · intro ⟨_, ha⟩
    exact of_decide_eq_true ha
  · intro ha
    exact ⟨hb a ha, decide_eq_true ha⟩

/-! ### The word-level shape of a fill split -/

theorem updateFill_words (b : Bitvec) (i target offset : Nat) (x : Bool) (pol : Bool) (c : Nat)
    (hi : i < b.words.length) (hw : b.words.getD i 0 = fillW pol c) (hc : c < 2 ^ 62)
    (htc : target ≤ c) :
    (Bitvec.updateFill b i target offset x).words =
      b.words.take i ++
        ((if 0 < target then [fillW pol (target - 1)] else []) ++
          (if x then 1 <<< offset else compl64 fillFlag ^^^ (1 <<< offset)) ::
          (if target < c then [fillW pol (c - target - 1)] else [])) ++
        b.words.drop (i + 1) := by
  unfold Bitvec.updateFill
  dsimp only
  rw [hw, fillW_head pol c hc, fillW_count pol c hc]
  generalize (if x then 1 <<< offset else compl64 fillFlag ^^^ (1 <<< offset)) = lit
  have hlen : (b.words.take i).length = i := by
    rw [List.length_take]
    omega
  by_cases ht : target > 0
  · rw [if_pos ht]
    dsimp only
    rw [fillW_or pol (target - 1) (by omega), set_take_drop _ _ _ hi,
      show b.words.take i ++ fillW pol (target - 1) :: b.words.drop (i + 1) =
        (b.words.take i ++ [fillW pol (target - 1)]) ++ b.words.drop (i + 1) by simp,
      insertAt_eq _ _ lit (i + 1) (by simp [hlen])]
    by_cases hsz : c > target
    · rw [if_pos hsz]
      rw [fillW_or pol (c - target - 1) (by omega),
        show (b.words.take i ++ [fillW pol (target - 1)]) ++ lit :: b.words.drop (i + 1) =
          ((b.words.take i ++ [fillW pol (target - 1)]) ++ [lit]) ++ b.words.drop (i + 1) by
            simp,
        insertAt_eq _ _ _ (i + 1 + 1) (by simp [hlen])]
      rw [if_pos ht, if_pos hsz]
      simp [List.append_assoc]
    · rw [if_neg hsz, if_pos ht, if_neg hsz]
      simp [List.append_assoc]
  · rw [if_neg ht]
    dsimp only
    rw [set_take_drop _ _ _ hi]
    by_cases hsz : c > target
    · rw [if_pos hsz]
      rw [fillW_or pol (c - target - 1) (by omega),
        show b.words.take i ++ lit :: b.words.drop (i + 1) =
          (b.words.take i ++ [lit]) ++ b.words.drop (i + 1) by simp,
        insertAt_eq _ _ _ (i + 1) (by simp [hlen])]
      rw [if_neg ht, if_pos hsz]
      simp [List.append_assoc]
    · rw [if_neg hsz, if_neg ht, if_neg hsz]
      simp [List.append_assoc]

/-- The emitted literal carries the written bit at `offset` and the fill's
polarity everywhere else. -/
theorem updateFill_lit_bits (offset : Nat) (x pol : Bool) (hoff : offset < 63)
    (hx : x = !pol) (j : Nat) (hj : j < 63) :
    (if x then 1 <<< offset else compl64 fillFlag ^^^ (1 <<< offset)).testBit j =
      (if j = offset then x else pol) := by
  by_cases hxt : x = true
  · have hp : pol = false := by
      cases pol
      · rfl
      · rw [hx] at hxt; exact absurd hxt (by decide)
    rw [if_pos hxt, ← Nat.zero_or (1 <<< offset), or_single_testBit, hxt, hp,
      Nat.zero_testBit, Bool.false_or]
    by_cases hja : j = offset
    · rw [if_pos hja]
      exact decide_eq_true hja.symm
    · rw [if_neg hja]
      exact decide_eq_false (fun hc : offset = j => hja hc.symm)
  · have hp : pol = true := by
      cases pol
      · rw [hx] at hxt; exact absurd rfl hxt
      · rfl
    have hxf : x = false := by
      cases x
      · rfl
      · exact absurd rfl hxt
    rw [if_neg hxt, ones_xor_eq_and offset hoff, andc_single_testBit _ _ _ (by omega),
      onesLiteral_testBit, hp, hxf, decide_eq_true hj, Bool.true_and]
    by_cases hja : j = offset
    · rw [if_pos hja, decide_eq_true hja.symm]
      rfl
    · rw [if_neg hja, decide_eq_false (fun hc : offset = j => hja hc.symm)]
      rfl

/-- A matching-polarity hit on a fill word is a no-op for `update`. -/
theorem update_fill_noop (b : Bitvec) (id : Nat) (x : Bool)
    (hi : (Bitvec.findWord b id).2.2.1 < b.words.length)
    (h63 : (b.words.getD (Bitvec.findWord b id).2.2.1 0).testBit 63 = true)
    (h62 : (b.words.getD (Bitvec.findWord b id).2.2.1 0).testBit 62 = x) :
    Bitvec.update b id x = b := by
  unfold Bitvec.update
  dsimp only
  rw [if_neg (by omega : ¬ (Bitvec.findWord b id).2.2.1 = b.words.length),
    if_pos ((and_fillFlag_ne _).mpr h63)]
  by_cases hxt : x = true
  · rw [if_neg ?_]
    intro hor
    rcases hor with ⟨_, hz⟩ | hno
    · have := (and_onesFlag_ne _).mpr (by rw [h62, hxt])
      exact this hz
    · exact hno (Or.inl hxt)
  · have hz : b.words.getD (Bitvec.findWord b id).2.2.1 0 &&& onesFlag = 0 := by
      by_contra hnz
      have := (and_onesFlag_ne _).mp hnz
      rw [h62] at this
      exact hxt this
    rw [if_neg ?_]
    intro hor
    rcases hor with ⟨hxx, _⟩ | hno
    · exact hxt hxx
    · exact hno (Or.inr hz)

/-! ### Claim theorems -/

/-- C1: after any finite sequence of `Set(i, v)` calls on a fresh bitvector
(out-of-order, repeated, and gap-extending writes included), every written
index lies below `size`, and `Get` at any index below `size` returns the last
value written there (`false` if it was never written). -/
theorem get_last_write (ops : List (Nat × Bool)) (i : Nat) :
    (∀ p ∈ ops, p.1 < (applyOps ops).size) ∧
    (i < (applyOps ops).size → Bitvec.Get (applyOps ops) i = lastWrite ops i) := by
  refine ⟨applyOps_size_ge ops, fun hi => ?_⟩
  rw [Get_spec _ _ (WF_applyOps ops) hi, applyOps_getD]

theorem get_last_write_witness :
    3 < (applyOps [(3, true), (1, true), (3, false)]).size ∧
    Bitvec.Get (applyOps [(3, true), (1, true), (3, false)]) 3 =
      lastWrite [(3, true), (1, true), (3, false)] 3 :=
  ⟨by decide, (get_last_write [(3, true), (1, true), (3, false)] 3).2 (by decide)⟩

/-- A write sequence that leaves two adjacent same-polarity fill words:
all of `0..188` except `70` set to `true`, then `70` set to `true`. -/
def adjOps : List (Nat × Bool) :=
  ((List.range 189).filter (fun i => i != 70)).map (fun i => (i, true)) ++ [(70, true)]

set_option maxRecDepth 100000 in
/-- C2 counterexample: after a sequence of `Set` calls from a fresh bitvector,
the committed words can contain two adjacent fills of the same polarity
(the merge in `updateLiteral` only looks left), refuting canonicity. -/
theorem adjacent_same_polarity_fills_exist :
    1 < (applyOps adjOps).words.length ∧
    ((applyOps adjOps).words.getD 0 0).testBit 63 = true ∧
    ((applyOps adjOps).words.getD 1 0).testBit 63 = true ∧
    ((applyOps adjOps).words.getD 0 0).testBit 62 =
      ((applyOps adjOps).words.getD 1 0).testBit 62 := by
  decide

/-- C2 (amended): the literal-word half of the canonicity claim does hold:
after any sequence of `Set` calls no committed literal word is the all-zero
pattern or the all-one pattern. -/
theorem no_trivial_literal_words (ops : List (Nat × Bool)) :
    ∀ w ∈ (applyOps ops).words, w.testBit 63 = false → 0 < w ∧ w ≠ onesLiteral := by
  intro w hw h63
  exact ((WF_applyOps ops).words_wf w hw).2 h63

theorem no_trivial_literal_words_witness :
    (32 ∈ (applyOps [(5, true), (100, false)]).words ∧ (32 : Nat).testBit 63 = false) ∧
    (0 < 32 ∧ (32 : Nat) ≠ onesLiteral) :=
  ⟨⟨by decide, by decide⟩,
   no_trivial_literal_words [(5, true), (100, false)] 32 (by decide) (by decide)⟩

/-- C3 counterexample: `Get` on an out-of-range index does not fail — it is a
total function — and it can return `true` (garbage read from the uncommitted
active word) rather than `false` or an error. -/
theorem get_oob_returns_garbage :
    (applyOps [(5, true)]).size ≤ 68 ∧ Bitvec.Get (applyOps [(5, true)]) 68 = true := by
  decide

/-- C3 (amended): for a well-formed bitvector and any `id ≥ size`, `Get`
returns a value (no error): `false`, except when `id` falls exactly one
literal-word past the committed words, where it reads the corresponding bit of
the uncommitted active word. -/
theorem get_oob_characterization (b : Bitvec) (h : WF b) (id : Nat) (hid : b.size ≤ id) :
    b.Get id =
      (if id / 63 = totalLits b.words + 1 then b.active.testBit (id % 63) else false) :=
  Get_oob b id h hid

theorem get_oob_characterization_witness :
    (applyOps [(5, true)]).size ≤ 68 ∧
    Bitvec.Get (applyOps [(5, true)]) 68 =
      (if 68 / 63 = totalLits (applyOps [(5, true)]).words + 1
       then (applyOps [(5, true)]).active.testBit (68 % 63) else false) :=
  ⟨by decide, get_oob_characterization (applyOps [(5, true)]) (WF_applyOps _) 68 (by decide)⟩

/-- C4: splitting a fill word of polarity `pol` and counter `c` at
literal-equivalent `target` with the opposite value `x` replaces it, in order,
by (a) a fill with counter `target − 1` if `target > 0`, (b) one literal
carrying `x` at `offset` and `pol` on all other payload bits, and (c) a fill
with counter `c − target − 1` if `target < c` — at most three words; and when
the written value matches the fill's polarity, `update` performs no mutation. -/
theorem fill_split_and_noop :
    (∀ (b : Bitvec) (i target offset : Nat) (x pol : Bool) (c : Nat),
      i < b.words.length → b.words.getD i 0 = fillW pol c → c < 2 ^ 62 → target ≤ c →
      (Bitvec.updateFill b i target offset x).words =
        b.words.take i ++
          ((if 0 < target then [fillW pol (target - 1)] else []) ++
            (if x then 1 <<< offset else compl64 fillFlag ^^^ (1 <<< offset)) ::
            (if target < c then [fillW pol (c - target - 1)] else [])) ++
          b.words.drop (i + 1)) ∧
    (∀ (offset : Nat) (x pol : Bool), offset < 63 → x = !pol →
      ∀ j, j < 63 →
        (if x then 1 <<< offset else compl64 fillFlag ^^^ (1 <<< offset)).testBit j =
          (if j = offset then x else pol)) ∧
    (∀ (b : Bitvec) (id : Nat) (x : Bool),
      (Bitvec.findWord b id).2.2.1 < b.words.length →
      (b.words.getD (Bitvec.findWord b id).2.2.1 0).testBit 63 = true →
      (b.words.getD (Bitvec.findWord b id).2.2.1 0).testBit 62 = x →
      Bitvec.update b id x = b) :=
  ⟨fun b i target offset x pol c hi hw hc htc =>
      updateFill_words b i target offset x pol c hi hw hc htc,
   fun offset x pol hoff hx j hj => updateFill_lit_bits offset x pol hoff hx j hj,
   fun b id x hi h63 h62 => update_fill_noop b id x hi h63 h62⟩

/-- A concrete bitvector holding one zeros fill of counter 3. -/
def cb4 : Bitvec := { size := 252, active := 0, offset := 0, words := [fillW false 3] }

theorem fill_split_and_noop_witness :
    ((0 < cb4.words.length ∧ cb4.words.getD 0 0 = fillW false 3 ∧
        (3 : Nat) < 2 ^ 62 ∧ 1 ≤ 3) ∧
      (Bitvec.updateFill cb4 0 1 5 true).words =
        cb4.words.take 0 ++
          ((if 0 < 1 then [fillW false (1 - 1)] else []) ++
            (if true then 1 <<< 5 else compl64 fillFlag ^^^ (1 <<< 5)) ::
            (if 1 < 3 then [fillW false (3 - 1 - 1)] else [])) ++
          cb4.words.drop (0 + 1)) ∧
    (if true then 1 <<< 5 else compl64 fillFlag ^^^ (1 <<< 5)).testBit 5 =
      (if 5 = 5 then true else false) ∧
    Bitvec.update (applyOps [(100, false)]) 5 false = applyOps [(100, false)] :=
  ⟨⟨⟨by decide, by decide, by decide, by decide⟩,
    fill_split_and_noop.1 cb4 0 1 5 true false 3 (by decide) (by decide) (by decide)
      (by decide)⟩,
   fill_split_and_noop.2.1 5 true false (by decide) (by decide) 5 (by decide),
   fill_split_and_noop.2.2 (applyOps [(100, false)]) 5 false (by decide) (by decide)
     (by decide)⟩

/-- C5: for each pair of chunks pulled from the two children, `And` yields
`wx & wy` with count `min nx ny`, `Or` yields `wx | wy` and `Xor` yields
`wx ^ wy`, each with count `max nx ny`; `Not` passes the count through and
yields the child word's complement with the reserved top bit clear. -/
theorem combinator_chunk_rules {σ τ : Type}
    (f : σ → (Nat × Nat) × σ) (g : τ → (Nat × Nat) × τ) :
    (∀ s : σ × τ,
      (andNext f g s).1 = ((f s.1).1.1 &&& (g s.2).1.1, min (f s.1).1.2 (g s.2).1.2)) ∧
    (∀ s : σ × τ,
      (orNext f g s).1 = ((f s.1).1.1 ||| (g s.2).1.1, max (f s.1).1.2 (g s.2).1.2)) ∧
    (∀ s : σ × τ,
      (xorNext f g s).1 = ((f s.1).1.1 ^^^ (g s.2).1.1, max (f s.1).1.2 (g s.2).1.2)) ∧
    (∀ s : σ, (notNext f s).1.2 = (f s).1.2) ∧
    (∀ s : σ, (f s).1.1 < 2 ^ 63 →
      (notNext f s).1.1.testBit 63 = false ∧
      ∀ j, j < 63 → (notNext f s).1.1.testBit j = !((f s).1.1.testBit j)) := by
  refine ⟨fun s => rfl, fun s => rfl, fun s => rfl, fun s => rfl, fun s hlt => ⟨?_, ?_⟩⟩
  · show (compl64 fillFlag ^^^ (f s).1.1).testBit 63 = false
    rw [Nat.testBit_xor, show compl64 fillFlag = onesLiteral from rfl, onesLiteral_testBit,
      testBit63_of_lt _ hlt]
    rfl
  · intro j hj
    show (compl64 fillFlag ^^^ (f s).1.1).testBit j = _
    rw [Nat.testBit_xor, show compl64 fillFlag = onesLiteral from rfl, onesLiteral_testBit,
      decide_eq_true hj, Bool.true_xor]

/-- A constant child iterator used to witness the chunk rules. -/
def cf : Unit → (Nat × Nat) × Unit := fun _ => ((12, 63), ())

/-- A second constant child iterator used to witness the chunk rules. -/
def cg : Unit → (Nat × Nat) × Unit := fun _ => ((10, 62), ())

theorem combinator_chunk_rules_witness :
    (andNext cf cg ((), ())).1 =
      ((cf ()).1.1 &&& (cg ()).1.1, min (cf ()).1.2 (cg ()).1.2) ∧
    (12 : Nat) < 2 ^ 63 ∧ 5 < 63 ∧
    (notNext cf ()).1.1.testBit 5 = !((cf ()).1.1.testBit 5) :=
  ⟨(combinator_chunk_rules cf cg).1 ((), ()),
   by decide, by decide,
   ((combinator_chunk_rules cf cg).2.2.2.2 () (by decide)).2 5 (by decide)⟩

/-- C6 counterexample: `And` can return a zero count while one child is not
exhausted (its count rule is `min`, so a single exhausted child suffices),
refuting "exactly when both children are exhausted". -/
theorem and_zero_without_both_exhausted :
    (andNext emptyNext (bvNext (applyOps [(0, true)])) ((), iterate0)).1.2 = 0 ∧
    (bvNext (applyOps [(0, true)]) iterate0).1.2 ≠ 0 := by
  decide

/-- C6 (amended): `And` ends exactly when either child ends, while `Or`/`Xor`
end exactly when both children end; and end-of-stream is permanent for
`Iterate()` iterators and is preserved by all four combinators. -/
theorem combinator_ends_and_permanence {σ τ : Type}
    (f : σ → (Nat × Nat) × σ) (g : τ → (Nat × Nat) × τ) :
    (∀ s : σ × τ, ((andNext f g s).1.2 = 0 ↔ ((f s.1).1.2 = 0 ∨ (g s.2).1.2 = 0))) ∧
    (∀ s : σ × τ, ((orNext f g s).1.2 = 0 ↔ ((f s.1).1.2 = 0 ∧ (g s.2).1.2 = 0))) ∧
    (∀ s : σ × τ, ((xorNext f g s).1.2 = 0 ↔ ((f s.1).1.2 = 0 ∧ (g s.2).1.2 = 0))) ∧
    (∀ b : Bitvec, Permanent (bvNext b)) ∧
    (Permanent f → Permanent (notNext f)) ∧
    (Permanent f → Permanent g → Permanent (andNext f g)) ∧
    (Permanent f → Permanent g → Permanent (orNext f g)) ∧
    (Permanent f → Permanent g → Permanent (xorNext f g)) := by
  refine ⟨?_, ?_, ?_, bvNext_permanent, notNext_permanent f, andNext_permanent f g,
    orNext_permanent f g, xorNext_permanent f g⟩
  · intro s
    show min (f s.1).1.2 (g s.2).1.2 = 0 ↔ _
    omega
  · intro s
    show max (f s.1).1.2 (g s.2).1.2 = 0 ↔ _
    omega
  · intro s
    show max (f s.1).1.2 (g s.2).1.2 = 0 ↔ _
    omega

theorem combinator_ends_and_permanence_witness :
    ((andNext emptyNext (bvNext (applyOps [(0, true)])) ((), iterate0)).1.2 = 0 ↔
      ((emptyNext ()).1.2 = 0 ∨ (bvNext (applyOps [(0, true)]) iterate0).1.2 = 0)) ∧
    (chunkAt (bvNext Bitvec.New) iterate0 0).2 = 0 ∧
    (chunkAt (andNext (bvNext Bitvec.New) (bvNext Bitvec.New)) (iterate0, iterate0) 0).2 = 0 ∧
    (chunkAt (andNext (bvNext Bitvec.New) (bvNext Bitvec.New)) (iterate0, iterate0) 9).2 = 0 :=
  ⟨(combinator_ends_and_permanence emptyNext (bvNext (applyOps [(0, true)]))).1 ((), iterate0),
   by decide,
   by decide,
   (combinator_ends_and_permanence (bvNext Bitvec.New) (bvNext Bitvec.New)).2.2.2.2.2.1
     (bvNext_permanent _) (bvNext_permanent _) (iterate0, iterate0) 0 9 (by decide)
     (by omega)⟩

/-- C7: after every sequence of public `Set` operations (append, zero-extend
and in-place update paths all included), `size` equals the total
literal-word-equivalents of `words` times `W−1` plus `offset`, with
`offset < W−1`. -/
theorem size_offset_invariant (ops : List (Nat × Bool)) :
    (applyOps ops).size =
      totalLits (applyOps ops).words * (bitLength - 1) + (applyOps ops).offset ∧
    (applyOps ops).offset < bitLength - 1 := by
  have h := WF_applyOps ops
  refine ⟨?_, by rw [bitLength_sub_one]; exact h.offset_lt⟩
  rw [bitLength_sub_one, h.size_eq]
  omega

/-- C8: for a bitvector built by setting exactly the members of a strictly
ascending list `L` to `true`, draining the `Indices` loop (with enough fuel
for the stream to finish) yields exactly `L`, in ascending order, each
position arising as chunk base plus in-chunk offset with the base advancing
by `W−1` per chunk. -/
theorem indices_yield_sorted_sets (L : List Nat) (hL : List.Chain' (· < ·) L) (fuel : Nat)
    (hfuel : totalLits (applyOps (L.map (fun i => (i, true)))).words + 2 ≤ fuel) :
    indicesAux (bvNext (applyOps (L.map (fun i => (i, true))))) fuel iterate0 0 = L := by
  rw [indices_drain _ _ hfuel]
  have h := WF_applyOps (L.map (fun i => (i, true)))
  have hlen : (toBits (applyOps (L.map (fun i => (i, true))))).length =
      (applyOps (L.map (fun i => (i, true)))).size := by
    rw [length_toBits, h.size_eq]
    omega
  unfold trueIndices
  rw [hlen, List.filter_congr (fun i _ => by
    rw [applyOps_getD, lastWrite_all_true])]
  refine filter_range_sorted L _ hL ?_
  intro i hi
  have hm : (i, true) ∈ L.map (fun i => (i, true)) := List.mem_map.mpr ⟨i, hi, rfl⟩
  exact applyOps_size_ge (L.map (fun i => (i, true))) (i, true) hm

theorem indices_yield_sorted_sets_witness :
    List.Chain' (· < ·) [1, 5, 70] ∧
    totalLits (applyOps ([1, 5, 70].map (fun i => (i, true)))).words + 2 ≤ 10 ∧
    indicesAux (bvNext (applyOps ([1, 5, 70].map (fun i => (i, true))))) 10 iterate0 0 =
      [1, 5, 70] :=
  ⟨by simp, by decide,
   indices_yield_sorted_sets [1, 5, 70] (by simp) 10 (by decide)⟩

/-- C9: `Count(Not(Not(x)))` computes the same value as `Count(x)` for an
iterator over a bitvector snapshot, for every fuel bound and every starting
state (double complement of each chunk word cancels and counts pass through). -/
theorem count_not_not (b : Bitvec) (s : BvIter) (fuel : Nat) :
    countAux (notNext (notNext (bvNext b))) fuel s = countAux (bvNext b) fuel s := by
  rw [show notNext (notNext (bvNext b)) = bvNext b from funext (notNext_notNext (bvNext b))]

/-- C10: because `zeroIterator.Next` has a value receiver, a real call never
changes the caller's state; for `n > 0` every call returns the same chunk —
`(0, W−1)` if `n ≥ W−1`, else `(0, n)` — and never a zero count, so a
consumer draining it until a zero count never terminates. -/
theorem zero_iterator_never_ends (n : Nat) (hn : 0 < n) (k : Nat) :
    chunkAt zeroCall n k = (0, if bitLength - 1 ≤ n then bitLength - 1 else n) ∧
    (chunkAt zeroCall n k).2 ≠ 0 := by
  have hchunk : chunkAt zeroCall n k =
      (0, if bitLength - 1 ≤ n then bitLength - 1 else n) := by
    rw [chunkAt, stepState_zeroCall]
    show (zeroIterNext n).1 = _
    unfold zeroIterNext
    by_cases h : bitLength - 1 ≤ n
    · rw [if_pos h, if_pos h]
    · rw [if_neg h, if_neg h]
  refine ⟨hchunk, ?_⟩
  rw [hchunk]
  dsimp only
  by_cases h : bitLength - 1 ≤ n
  · rw [if_pos h]
    decide
  · rw [if_neg h]
    omega

theorem zero_iterator_never_ends_witness :
    0 < 5 ∧
    chunkAt zeroCall 5 3 = (0, if bitLength - 1 ≤ 5 then bitLength - 1 else 5) ∧
    (chunkAt zeroCall 5 3).2 ≠ 0 :=
  ⟨by decide, zero_iterator_never_ends 5 (by decide) 3⟩
